import Mathlib

/-!
Shallow embedding of the textbook-order spreadsheet tool (src/main.py).
Cell strings are modelled as `List Char`; the three endpoint pipelines
(`process_excel`, `process_winter_homework`, `process_westlake`) are embedded
as pure functions over a header list and a list of rows of cell values.
Pandas' `sort_values` is modelled as a (stable) insertion sort and Python
regex `findall`/`search` as deterministic scanners specialised to the exact
patterns appearing in the source.
-/

namespace ExcelTool

/-- First-occurrence index of an element in a list (`list.index`-style). -/
def idxOf? {α : Type} [DecidableEq α] (x : α) : List α → Option Nat
  | [] => none
  | a :: l => if a = x then some 0 else (idxOf? x l).map (· + 1)

/-- First index of an element satisfying a predicate. -/
def firstIdx? {α : Type} (p : α → Bool) : List α → Option Nat
  | [] => none
  | a :: l => if p a then some 0 else (firstIdx? p l).map (· + 1)

/-- Stable insertion of `a` into `l`: `a` is placed before the first element
`b` with `le a b`. -/
def insSorted {α : Type} (le : α → α → Bool) (a : α) : List α → List α
  | [] => [a]
  | b :: l => if le a b then a :: b :: l else b :: insSorted le a l

/-- Stable insertion sort (model of `DataFrame.sort_values`). -/
def isort {α : Type} (le : α → α → Bool) : List α → List α
  | [] => []
  | a :: l => insSorted le a (isort le l)

/-- Keep the first occurrence per key (model of `drop_duplicates(subset=…)`). -/
def dedupK {α κ : Type} [DecidableEq κ] (key : α → κ) : List α → List α
  | [] => []
  | a :: l => a :: dedupK key (l.filter (fun b => decide (key b ≠ key a)))
termination_by l => l.length
decreasing_by
  exact Nat.lt_succ_of_le (List.length_filter_le _ _)

/-- Digit run to a natural number, as Python `int` on a digit string. -/
def natOfDigits (l : List Char) : Nat :=
  l.foldl (fun n c => n * 10 + (c.toNat - '0'.toNat)) 0

/-- Code-point lexicographic comparison of character lists, as Python string
`<=` used by pandas when sorting string columns. -/
def lexLe : List Char → List Char → Bool
  | [], _ => true
  | _ :: _, [] => false
  | a :: as, b :: bs => if a < b then true else if b < a then false else lexLe as bs

/-- Does `l` start with `pre`? -/
def startsList : List Char → List Char → Bool
  | [], _ => true
  | _ :: _, [] => false
  | a :: as, b :: bs => a = b && startsList as bs

/-- Substring containment, as Python `needle in hay`. -/
def hasSub (needle : List Char) : List Char → Bool
  | [] => needle.isEmpty
  | c :: rest => startsList needle (c :: rest) || hasSub needle rest

section SortLemmas

variable {α : Type} {κ : Type} [DecidableEq κ]

theorem mem_insSorted (le : α → α → Bool) (a b : α) (l : List α) :
    b ∈ insSorted le a l ↔ b = a ∨ b ∈ l := by
  induction l with
  | nil => simp [insSorted]
  | cons c l ih =>
    by_cases h : le a c = true <;> simp [insSorted, h, ih] <;> tauto

theorem mem_isort (le : α → α → Bool) (b : α) (l : List α) :
    b ∈ isort le l ↔ b ∈ l := by
  induction l with
  | nil => simp [isort]
  | cons a l ih => simp [isort, mem_insSorted, ih]

theorem insSorted_eq_cons (le : α → α → Bool) (a : α) (l : List α)
    (h : ∀ x ∈ l, le a x = true) : insSorted le a l = a :: l := by
  cases l with
  | nil => rfl
  | cons b l => simp [insSorted, h b (by simp)]

theorem pairwise_insSorted (le : α → α → Bool)
    (htrans : ∀ a b c, le a b = true → le b c = true → le a c = true)
    (htot : ∀ a b, le a b = true ∨ le b a = true)
    (a : α) (l : List α) (hl : l.Pairwise (fun x y => le x y = true)) :
    (insSorted le a l).Pairwise (fun x y => le x y = true) := by
  induction l with
  | nil => simp [insSorted]
  | cons b l ih =>
    obtain ⟨hb, hl2⟩ := List.pairwise_cons.mp hl
    by_cases h : le a b = true
    · have h1 : insSorted le a (b :: l) = a :: b :: l := by simp [insSorted, h]
      rw [h1]
      refine List.Pairwise.cons ?_ hl
      intro y hy
      rcases List.mem_cons.mp hy with rfl | hy
      · exact h
      · exact htrans a b y h (hb y hy)
    · have h2 : le b a = true := (htot a b).resolve_left h
      have h1 : insSorted le a (b :: l) = b :: insSorted le a l := by
        simp [insSorted, h]
      rw [h1]
      refine List.Pairwise.cons ?_ (ih hl2)
      intro y hy
      rcases (mem_insSorted le a y l).mp hy with rfl | hy
      · exact h2
      · exact hb y hy

theorem isort_pairwise (le : α → α → Bool)
    (htrans : ∀ a b c, le a b = true → le b c = true → le a c = true)
    (htot : ∀ a b, le a b = true ∨ le b a = true)
    (l : List α) : (isort le l).Pairwise (fun x y => le x y = true) := by
  induction l with
  | nil => simp [isort]
  | cons a l ih => exact pairwise_insSorted le htrans htot a _ ih

theorem filter_insSorted_pos (le : α → α → Bool)
    (htrans : ∀ a b c, le a b = true → le b c = true → le a c = true)
    (p : α → Bool) (a : α) (ha : p a = true) :
    ∀ (m : List α), m.Pairwise (fun x y => le x y = true) →
      (insSorted le a m).filter p = insSorted le a (m.filter p) := by
  intro m
  induction m with
  | nil => simp [insSorted, List.filter, ha]
  | cons b m ih =>
    intro hm
    obtain ⟨hb, hm2⟩ := List.pairwise_cons.mp hm
    have hax : ∀ x ∈ b :: m, le a b = true → le a x = true := by
      intro x hx h
      rcases List.mem_cons.mp hx with rfl | hx
      · exact h
      · exact htrans a b x h (hb x hx)
    by_cases h : le a b = true
    · have h1 : insSorted le a (b :: m) = a :: b :: m := by simp [insSorted, h]
      rw [h1]
      have h2 : insSorted le a ((b :: m).filter p) = a :: (b :: m).filter p := by
        apply insSorted_eq_cons
        intro x hx
        exact hax x ((List.filter_sublist _).mem hx) h
      rw [h2]
      simp [List.filter_cons, ha]
    · have h1 : insSorted le a (b :: m) = b :: insSorted le a m := by simp [insSorted, h]
      rw [h1]
      by_cases hpb : p b = true
      · have h3 : (b :: m).filter p = b :: m.filter p := by simp [List.filter_cons, hpb]
        have h4 : (b :: insSorted le a m).filter p = b :: (insSorted le a m).filter p := by
          simp [List.filter_cons, hpb]
        rw [h3, h4, ih hm2]
        simp [insSorted, h]
      · have hpb' : p b = false := by revert hpb; cases p b <;> simp
        have h3 : (b :: m).filter p = m.filter p := by simp [List.filter_cons, hpb']
        have h4 : (b :: insSorted le a m).filter p = (insSorted le a m).filter p := by
          simp [List.filter_cons, hpb']
        rw [h3, h4, ih hm2]

theorem filter_insSorted_neg (le : α → α → Bool) (p : α → Bool) (a : α)
    (ha : p a = false) :
    ∀ (m : List α), (insSorted le a m).filter p = m.filter p := by
  intro m
  induction m with
  | nil => simp [insSorted, List.filter, ha]
  | cons b m ih =>
    by_cases h : le a b = true
    · simp [insSorted, h, List.filter_cons, ha]
    · have h1 : insSorted le a (b :: m) = b :: insSorted le a m := by simp [insSorted, h]
      rw [h1]
      simp only [List.filter_cons]
      rw [ih]

theorem filter_isort (le : α → α → Bool)
    (htrans : ∀ a b c, le a b = true → le b c = true → le a c = true)
    (htot : ∀ a b, le a b = true ∨ le b a = true)
    (p : α → Bool) (l : List α) :
    (isort le l).filter p = isort le (l.filter p) := by
  induction l with
  | nil => simp [isort]
  | cons a l ih =>
    by_cases hp : p a = true
    · have : (isort le (a :: l)).filter p = insSorted le a ((isort le l).filter p) :=
        filter_insSorted_pos le htrans p a hp _ (isort_pairwise le htrans htot l)
      rw [this, ih]
      simp [List.filter_cons, hp, isort]
    · have hp' : p a = false := by revert hp; cases p a <;> simp
      have : (isort le (a :: l)).filter p = (isort le l).filter p :=
        filter_insSorted_neg le p a hp' _
      rw [this, ih]
      simp [List.filter_cons, hp', isort]

theorem dedupK_nil (key : α → κ) : dedupK key [] = [] := by
  simp [dedupK]

theorem dedupK_cons (key : α → κ) (a : α) (l : List α) :
    dedupK key (a :: l) =
      a :: dedupK key (l.filter (fun b => decide (key b ≠ key a))) := by
  simp [dedupK]

theorem dedupK_subset (key : α → κ) :
    ∀ (n : Nat) (l : List α), l.length ≤ n → ∀ b ∈ dedupK key l, b ∈ l := by
  intro n
  induction n with
  | zero =>
    intro l hl
    have : l = [] := List.length_eq_zero.mp (Nat.le_zero.mp hl)
    subst this
    simp [dedupK_nil]
  | succ n ih =>
    intro l hl b hb
    cases l with
    | nil => simpa [dedupK_nil] using hb
    | cons a l =>
      rw [dedupK_cons] at hb
      rcases List.mem_cons.mp hb with rfl | hb
      · exact List.mem_cons_self _ _
      · have hlen : (l.filter (fun b => decide (key b ≠ key a))).length ≤ n :=
          le_trans (List.length_filter_le _ _) (Nat.le_of_succ_le_succ hl)
        have := ih _ hlen b hb
        exact List.mem_cons_of_mem a ((List.filter_sublist l).mem this)

theorem dedupK_complete (key : α → κ) :
    ∀ (n : Nat) (l : List α), l.length ≤ n →
      ∀ b ∈ l, ∃ c ∈ dedupK key l, key c = key b := by
  intro n
  induction n with
  | zero =>
    intro l hl
    have : l = [] := List.length_eq_zero.mp (Nat.le_zero.mp hl)
    subst this
    simp
  | succ n ih =>
    intro l hl b hb
    cases l with
    | nil => simp at hb
    | cons a l =>
      rw [dedupK_cons]
      by_cases hk : key b = key a
      · exact ⟨a, List.mem_cons_self _ _, hk.symm⟩
      · rcases List.mem_cons.mp hb with rfl | hb
        · exact absurd rfl hk
        · have hmem : b ∈ l.filter (fun b => decide (key b ≠ key a)) := by
            rw [List.mem_filter]
            exact ⟨hb, by simpa using hk⟩
          have hlen : (l.filter (fun b => decide (key b ≠ key a))).length ≤ n :=
            le_trans (List.length_filter_le _ _) (Nat.le_of_succ_le_succ hl)
          rcases ih _ hlen b hmem with ⟨c, hc, hkc⟩
          exact ⟨c, List.mem_cons_of_mem a hc, hkc⟩

theorem dedupK_pairwise (key : α → κ) :
    ∀ (n : Nat) (l : List α), l.length ≤ n →
      (dedupK key l).Pairwise (fun x y => key x ≠ key y) := by
  intro n
  induction n with
  | zero =>
    intro l hl
    have : l = [] := List.length_eq_zero.mp (Nat.le_zero.mp hl)
    subst this
    simp [dedupK_nil]
  | succ n ih =>
    intro l hl
    cases l with
    | nil => simp [dedupK_nil]
    | cons a l =>
      rw [dedupK_cons]
      have hlen : (l.filter (fun b => decide (key b ≠ key a))).length ≤ n :=
        le_trans (List.length_filter_le _ _) (Nat.le_of_succ_le_succ hl)
      refine List.Pairwise.cons ?_ (ih _ hlen)
      intro y hy
      have hy2 := dedupK_subset key n _ hlen y hy
      have := (List.mem_filter.mp hy2).2
      simp at this
      exact fun h => this h.symm

theorem filter_swap (p q : α → Bool) (l : List α) :
    (l.filter p).filter q = (l.filter q).filter p := by
  rw [List.filter_filter, List.filter_filter]
  apply List.filter_congr
  intro x _
  exact Bool.and_comm _ _

/-- The key theorem behind C2: with a stable sort whose comparator identifies
key-equal elements, first-occurrence dedup commutes with sorting. -/
theorem dedupK_insSorted (le : α → α → Bool) (key : α → κ)
    (htrans : ∀ a b c, le a b = true → le b c = true → le a c = true)
    (hkey : ∀ a b, key a = key b → le a b = true) :
    ∀ (n : Nat) (m : List α), m.length ≤ n →
      m.Pairwise (fun x y => le x y = true) → ∀ a,
      dedupK key (insSorted le a m) =
        insSorted le a (dedupK key (m.filter (fun b => decide (key b ≠ key a)))) := by
  intro n
  induction n with
  | zero =>
    intro m hm _ a
    have : m = [] := List.length_eq_zero.mp (Nat.le_zero.mp hm)
    subst this
    simp [insSorted, dedupK_cons, dedupK_nil]
  | succ n ih =>
    intro m hm hp a
    cases m with
    | nil => simp [insSorted, dedupK_cons, dedupK_nil]
    | cons b m =>
      obtain ⟨hb, hp2⟩ := List.pairwise_cons.mp hp
      have hmlen : m.length ≤ n := Nat.le_of_succ_le_succ hm
      by_cases h : le a b = true
      · have h1 : insSorted le a (b :: m) = a :: b :: m := by simp [insSorted, h]
        rw [h1, dedupK_cons]
        rw [insSorted_eq_cons]
        intro x hx
        have hxlen : ((b :: m).filter (fun c => decide (key c ≠ key a))).length ≤ n + 1 :=
          le_trans (List.length_filter_le _ _) hm
        have hx2 := dedupK_subset key (n+1) _ hxlen x hx
        have hx3 := (List.mem_filter.mp hx2).1
        rcases List.mem_cons.mp hx3 with rfl | hx4
        · exact h
        · exact htrans a b x h (hb x hx4)
      · have hkab : key a ≠ key b := fun hk => h (hkey a b hk)
        have h1 : insSorted le a (b :: m) = b :: insSorted le a m := by simp [insSorted, h]
        rw [h1, dedupK_cons]
        have hcomm : (insSorted le a m).filter (fun c => decide (key c ≠ key b)) =
            insSorted le a (m.filter (fun c => decide (key c ≠ key b))) := by
          apply filter_insSorted_pos le htrans _ a (by simpa using hkab) m hp2
        rw [hcomm]
        have hflen : (m.filter (fun c => decide (key c ≠ key b))).length ≤ n :=
          le_trans (List.length_filter_le _ _) hmlen
        rw [ih _ hflen (List.Pairwise.sublist (List.filter_sublist m) hp2) a]
        have hfilter : (b :: m).filter (fun c => decide (key c ≠ key a)) =
            b :: m.filter (fun c => decide (key c ≠ key a)) := by
          simp only [List.filter_cons]
          have : decide (key b ≠ key a) = true := by
            simp
            exact fun hk => absurd hk.symm hkab
          rw [this]
          simp
        rw [hfilter, dedupK_cons]
        have h2 : insSorted le a
            (b :: dedupK key ((m.filter (fun c => decide (key c ≠ key a))).filter
              (fun c => decide (key c ≠ key b)))) =
            b :: insSorted le a (dedupK key ((m.filter (fun c => decide (key c ≠ key a))).filter
              (fun c => decide (key c ≠ key b)))) := by
          simp [insSorted, h]
        rw [h2]
        rw [filter_swap]

theorem dedupK_isort_comm (le : α → α → Bool) (key : α → κ)
    (htrans : ∀ a b c, le a b = true → le b c = true → le a c = true)
    (htot : ∀ a b, le a b = true ∨ le b a = true)
    (hkey : ∀ a b, key a = key b → le a b = true) :
    ∀ (n : Nat) (l : List α), l.length ≤ n →
      dedupK key (isort le l) = isort le (dedupK key l) := by
  intro n
  induction n with
  | zero =>
    intro l hl
    have : l = [] := List.length_eq_zero.mp (Nat.le_zero.mp hl)
    subst this
    simp [isort, dedupK_nil]
  | succ n ih =>
    intro l hl
    cases l with
    | nil => simp [isort, dedupK_nil]
    | cons a l =>
      have hlen : l.length ≤ n := Nat.le_of_succ_le_succ hl
      show dedupK key (insSorted le a (isort le l)) = _
      rw [dedupK_insSorted le key htrans hkey (isort le l).length _ le_rfl
        (isort_pairwise le htrans htot l) a]
      rw [filter_isort le htrans htot]
      have hflen : (l.filter (fun b => decide (key b ≠ key a))).length ≤ n :=
        le_trans (List.length_filter_le _ _) hlen
      rw [ih _ hflen]
      rw [dedupK_cons]
      rfl

/-- Sorting followed by first-occurrence dedup equals dedup followed by sorting
(the form `process_excel` actually computes). -/
theorem sort_dedup_eq_dedup_sort (le : α → α → Bool) (key : α → κ)
    (htrans : ∀ a b c, le a b = true → le b c = true → le a c = true)
    (htot : ∀ a b, le a b = true ∨ le b a = true)
    (hkey : ∀ a b, key a = key b → le a b = true) (l : List α) :
    dedupK key (isort le l) = isort le (dedupK key l) :=
  dedupK_isort_comm le key htrans htot hkey l.length l le_rfl

end SortLemmas

section LexLemmas

theorem lexLe_refl (l : List Char) : lexLe l l = true := by
  induction l with
  | nil => rfl
  | cons a l ih => simp [lexLe, lt_irrefl, ih]

theorem lexLe_total (a b : List Char) : lexLe a b = true ∨ lexLe b a = true := by
  induction a generalizing b with
  | nil => left; rfl
  | cons x xs ih =>
    cases b with
    | nil => right; rfl
    | cons y ys =>
      rcases lt_trichotomy x y with h | h | h
      · left; simp [lexLe, h]
      · subst h
        rcases ih ys with h2 | h2
        · left; simp [lexLe, lt_irrefl, h2]
        · right; simp [lexLe, lt_irrefl, h2]
      · right; simp [lexLe, h]

theorem lexLe_trans (a b c : List Char) :
    lexLe a b = true → lexLe b c = true → lexLe a c = true := by
  induction a generalizing b c with
  | nil => intro _ _; rfl
  | cons x xs ih =>
    intro hab hbc
    cases b with
    | nil => simp [lexLe] at hab
    | cons y ys =>
      cases c with
      | nil => simp [lexLe] at hbc
      | cons z zs =>
        by_cases hxy : x < y
        · by_cases hyz : y < z
          · simp [lexLe, lt_trans hxy hyz]
          · by_cases hzy : z < y
            · simp [lexLe, hyz, hzy] at hbc
            · have : y = z := le_antisymm (not_lt.mp hzy) (not_lt.mp hyz)
              subst this
              simp [lexLe, hxy]
        · by_cases hyx : y < x
          · simp [lexLe, hxy, hyx] at hab
          · have hxy2 : x = y := le_antisymm (not_lt.mp hyx) (not_lt.mp hxy)
            subst hxy2
            simp only [lexLe, lt_irrefl, if_false] at hab
            by_cases hyz : x < z
            · simp [lexLe, hyz]
            · by_cases hzy : z < x
              · simp [lexLe, hyz, hzy] at hbc
              · have : x = z := le_antisymm (not_lt.mp hzy) (not_lt.mp hyz)
                subst this
                simp only [lexLe, lt_irrefl, if_false] at hbc ⊢
                exact ih ys zs hab hbc

theorem lexLe_antisymm (a b : List Char) :
    lexLe a b = true → lexLe b a = true → a = b := by
  induction a generalizing b with
  | nil =>
    intro _ hba
    cases b with
    | nil => rfl
    | cons y ys => simp [lexLe] at hba
  | cons x xs ih =>
    intro hab hba
    cases b with
    | nil => simp [lexLe] at hab
    | cons y ys =>
      by_cases hxy : x < y
      · simp [lexLe, hxy, asymm hxy] at hba
      · by_cases hyx : y < x
        · simp [lexLe, hxy, hyx] at hab
        · have : x = y := le_antisymm (not_lt.mp hyx) (not_lt.mp hxy)
          subst this
          simp only [lexLe, lt_irrefl, if_false] at hab hba
          rw [ih ys hab hba]

end LexLemmas

/-! Generic scanner modelling Python `re.findall`: try a (deterministic)
match at each position; on success continue after the consumed part, on
failure advance one character.  The guard `r.length ≤ t.length` is Python's
rule of advancing by one character past an empty match; every matcher below
consumes at least one character, so the guard is always satisfied there. -/

/-- Scan a string, collecting the groups of successive non-overlapping
matches, as `re.findall` does. -/
def scanAll {β : Type} (m : List Char → Option (β × List Char)) : List Char → List β
  | [] => []
  | a :: t =>
    match m (a :: t) with
    | some (b, r) => b :: scanAll m (if _h : r.length ≤ t.length then r else t)
    | none => scanAll m t
termination_by l => l.length
decreasing_by
  all_goals first
    | (split
       · simp only [List.length_cons]
         omega
       · simp only [List.length_cons]
         omega)
    | (simp only [List.length_cons]
       omega)

/-! Dialect A (`process_excel`): `parse_class_info` with patterns
`(\d{2}[^（\s]+?)（(\d+)人?）` and `(\d{2}[^（\s]+?)（(\d+)）`, and the
canonicalizer `normalize_class_name_final`. -/

/-- Character class `[^（\s]` of the dialect-A patterns. -/
def goodA (c : Char) : Bool := !(c = '（' || c.isWhitespace)

/-- Character class `[^（）\s]` of the canonicalizer's search pattern. -/
def goodN (c : Char) : Bool := !(c = '（' || c = '）' || c.isWhitespace)

/-- One attempt of `(\d{2}[^（\s]+?)（(\d+)人?）` at the current position.
The lazy quantifier is equivalent to the maximal `goodA` run here because
`（` is excluded from the class, and `(\d+)` needs no backtracking because a
shorter digit run would leave a digit where `人`/`）` is required. -/
def matchA1At : List Char → Option ((List Char × Nat) × List Char)
  | d1 :: d2 :: rest =>
    if d1.isDigit && d2.isDigit then
      if (rest.takeWhile goodA).isEmpty then none
      else
        match rest.dropWhile goodA with
        | '（' :: rest2 =>
          if (rest2.takeWhile Char.isDigit).isEmpty then none
          else
            match rest2.dropWhile Char.isDigit with
            | '）' :: rest3 =>
              some ((d1 :: d2 :: rest.takeWhile goodA,
                natOfDigits (rest2.takeWhile Char.isDigit)), rest3)
            | '人' :: '）' :: rest3 =>
              some ((d1 :: d2 :: rest.takeWhile goodA,
                natOfDigits (rest2.takeWhile Char.isDigit)), rest3)
            | _ => none
        | _ => none
    else none
  | _ => none

/-- One attempt of `(\d{2}[^（\s]+?)（(\d+)）` at the current position. -/
def matchA2At : List Char → Option ((List Char × Nat) × List Char)
  | d1 :: d2 :: rest =>
    if d1.isDigit && d2.isDigit then
      if (rest.takeWhile goodA).isEmpty then none
      else
        match rest.dropWhile goodA with
        | '（' :: rest2 =>
          if (rest2.takeWhile Char.isDigit).isEmpty then none
          else
            match rest2.dropWhile Char.isDigit with
            | '）' :: rest3 =>
              some ((d1 :: d2 :: rest.takeWhile goodA,
                natOfDigits (rest2.takeWhile Char.isDigit)), rest3)
            | _ => none
        | _ => none
    else none
  | _ => none

/-- Model of `parse_class_info`: pattern-1 matches, then pattern-2 matches appended
when their class text is not already present. -/
def parse_class_info (l : List Char) : List (List Char × Nat) :=
  let c1 := scanAll matchA1At l
  (scanAll matchA2At l).foldl
    (fun acc e => if acc.any (fun c => c.1 == e.1) then acc else acc ++ [e]) c1

/-- One attempt of the canonicalizer's search pattern `2[45][^（）\s]+`. -/
def classNameMatchAt : List Char → Option (List Char)
  | a :: c :: rest =>
    if a = '2' && (c = '4' || c = '5') then
      if (rest.takeWhile goodN).isEmpty then none
      else some (a :: c :: rest.takeWhile goodN)
    else none
  | _ => none

/-- Model of `re.search(r'(2[45][^（）\s]+)', x)`: leftmost match. -/
def searchClassName : List Char → Option (List Char)
  | [] => none
  | a :: t =>
    match classNameMatchAt (a :: t) with
    | some g => some g
    | none => searchClassName t

/-- Second step of `normalize_class_name_final`: the `级` / year-prefix rule
(`year = x[:2]`, `major = x[3:]`, drop a further leading `级`). -/
def normalizeGradeStep (x : List Char) : List Char :=
  if decide ('级' ∈ x) && (startsList ['2', '4'] x || startsList ['2', '5'] x) then
    x.take 2 ++
      (if startsList ['级'] (x.drop 3) then (x.drop 3).drop 1 else x.drop 3)
  else x

/-- Model of `normalize_class_name_final` from `process_excel`. -/
def normalize_class_name_final (x : List Char) : List Char :=
  if hasSub ['人', '）'] x || decide ('）' ∈ x) then
    match searchClassName x with
    | some g => g
    | none => normalizeGradeStep x
  else normalizeGradeStep x

/-! Dialect B (`process_winter_homework`): `parse_class_info_new` with
pattern `(\d+班)\s*(\d+)人` and fallback `(\d+班)\s*(\d+)`. -/

/-- One attempt of `(\d+班)\s*(\d+)人` at the current position. -/
def matchB1At (l : List Char) : Option ((List Char × Nat) × List Char) :=
  if (l.takeWhile Char.isDigit).isEmpty then none
  else
    match l.dropWhile Char.isDigit with
    | '班' :: r2 =>
      if ((r2.dropWhile Char.isWhitespace).takeWhile Char.isDigit).isEmpty then none
      else
        match (r2.dropWhile Char.isWhitespace).dropWhile Char.isDigit with
        | '人' :: r3 =>
          some ((l.takeWhile Char.isDigit ++ ['班'],
            natOfDigits ((r2.dropWhile Char.isWhitespace).takeWhile Char.isDigit)), r3)
        | _ => none
    | _ => none

/-- One attempt of `(\d+班)\s*(\d+)` at the current position. -/
def matchB2At (l : List Char) : Option ((List Char × Nat) × List Char) :=
  if (l.takeWhile Char.isDigit).isEmpty then none
  else
    match l.dropWhile Char.isDigit with
    | '班' :: r2 =>
      if ((r2.dropWhile Char.isWhitespace).takeWhile Char.isDigit).isEmpty then none
      else
        some ((l.takeWhile Char.isDigit ++ ['班'],
          natOfDigits ((r2.dropWhile Char.isWhitespace).takeWhile Char.isDigit)),
          (r2.dropWhile Char.isWhitespace).dropWhile Char.isDigit)
    | _ => none

/-- Model of `parse_class_info_new`: tier 1, else (when tier 1 yields nothing) tier 2. -/
def parse_class_info_new (l : List Char) : List (List Char × Nat) :=
  let c1 := scanAll matchB1At l
  if c1.isEmpty then scanAll matchB2At l else c1

/-! Dialect C (`process_westlake`): cleaning (`re.sub` of parenthesised
content, strip of separators), then `parse_class_info_new_format` with four
pattern tiers, and `get_class_sort_key`. -/

/-- CJK ideograph class `[一-龥]`. -/
def isCJK (c : Char) : Bool := decide (0x4e00 ≤ c.toNat) && decide (c.toNat ≤ 0x9fa5)

/-- Separator set of `strip(' 、，,')`. -/
def isSep (c : Char) : Bool := c = ' ' || c = '、' || c = '，' || c = ','

/-- Model of `re.sub(r'（[^）]*）', '', s)`: delete full-width-parenthesised content. -/
def subFW : List Char → List Char
  | [] => []
  | c :: rest =>
    if c = '（' then
      match _h : rest.dropWhile (fun x => !(x = '）')) with
      | '）' :: rest2 => subFW rest2
      | _ => c :: subFW rest
    else c :: subFW rest
termination_by l => l.length
decreasing_by
  · have hle : ('）' :: rest2).length ≤ rest.length := by
      rw [← _h]
      exact (List.dropWhile_sublist _).length_le
    simp only [List.length_cons] at hle ⊢
    omega
  · simp only [List.length_cons]
    omega
  · simp only [List.length_cons]
    omega

/-- Model of `re.sub(r'\([^)]*\)', '', s)`: delete ASCII-parenthesised content. -/
def subAscii : List Char → List Char
  | [] => []
  | c :: rest =>
    if c = '(' then
      match _h : rest.dropWhile (fun x => !(x = ')')) with
      | ')' :: rest2 => subAscii rest2
      | _ => c :: subAscii rest
    else c :: subAscii rest
termination_by l => l.length
decreasing_by
  · have hle : (')' :: rest2).length ≤ rest.length := by
      rw [← _h]
      exact (List.dropWhile_sublist _).length_le
    simp only [List.length_cons] at hle ⊢
    omega
  · simp only [List.length_cons]
    omega
  · simp only [List.length_cons]
    omega

/-- Model of `strip(' 、，,')`. -/
def stripSeps (l : List Char) : List Char :=
  ((l.dropWhile isSep).reverse.dropWhile isSep).reverse

/-- The cleaning prelude of `parse_class_info_new_format`. -/
def cleanC (s : List Char) : List Char := stripSeps (subAscii (subFW s))

/-- Optional `(?:-(\d+))?` suffix: on `-<digits>` consume and return the
count, otherwise consume nothing. -/
def dashCount (r : List Char) : Option Nat × List Char :=
  match r with
  | '-' :: r3 =>
    if (r3.takeWhile Char.isDigit).isEmpty then (none, r)
    else (some (natOfDigits (r3.takeWhile Char.isDigit)), r3.dropWhile Char.isDigit)
  | _ => (none, r)

/-- One attempt of `([一-龥]+)(\d{2})(\d+)(?:-(\d+))?` (tier 1). -/
def matchC1At (l : List Char) : Option ((List Char × List Char × List Char × Option Nat) × List Char) :=
  if (l.takeWhile isCJK).isEmpty then none
  else
    if ((l.dropWhile isCJK).takeWhile Char.isDigit).length < 3 then none
    else
      let ds := (l.dropWhile isCJK).takeWhile Char.isDigit
      let p := dashCount ((l.dropWhile isCJK).dropWhile Char.isDigit)
      some ((l.takeWhile isCJK, ds.take 2, ds.drop 2, p.1), p.2)

/-- One attempt of `([一-龥]*)(\d{2})(\d+)(?:-(\d+))?` (tier 2). -/
def matchC2At (l : List Char) : Option ((List Char × List Char × List Char × Option Nat) × List Char) :=
  if ((l.dropWhile isCJK).takeWhile Char.isDigit).length < 3 then none
  else
    let ds := (l.dropWhile isCJK).takeWhile Char.isDigit
    let p := dashCount ((l.dropWhile isCJK).dropWhile Char.isDigit)
    some ((l.takeWhile isCJK, ds.take 2, ds.drop 2, p.1), p.2)

/-- One attempt of `(\d{2})(\d+)(?:-(\d+))?` (tier 3). -/
def matchC3At (l : List Char) : Option ((List Char × List Char × Option Nat) × List Char) :=
  if (l.takeWhile Char.isDigit).length < 3 then none
  else
    let ds := l.takeWhile Char.isDigit
    let p := dashCount (l.dropWhile Char.isDigit)
    some ((ds.take 2, ds.drop 2, p.1), p.2)

/-- One attempt of `(\d{3})(?:-(\d+))?` (tier 4). -/
def matchC4At (l : List Char) : Option ((List Char × Option Nat) × List Char) :=
  match l with
  | d1 :: d2 :: d3 :: r =>
    if d1.isDigit && d2.isDigit && d3.isDigit then
      let p := dashCount r
      some (([d1, d2, d3], p.1), p.2)
    else none
  | _ => none

/-- Append an entry unless its class id is already present
(`if not any(c[0] == class_name for c in classes)`). -/
def addIfNewC (acc : List (List Char × Option Nat)) (e : List Char × Option Nat) :
    List (List Char × Option Nat) :=
  if acc.any (fun c => c.1 == e.1) then acc else acc ++ [e]

/-- Entries contributed by tier 1 (`matches1`). -/
def tier1EntriesC (cl : List Char) : List (List Char × Option Nat) :=
  (scanAll matchC1At cl).map (fun g => (g.2.1 ++ g.1 ++ g.2.2.1, g.2.2.2))

/-- Classes accumulated after the tier-2 block (run only when `matches1`
is empty), with the default major `电` substituted for an absent run. -/
def stageC2 (cl : List Char) : List (List Char × Option Nat) :=
  let c1 := tier1EntriesC cl
  if (scanAll matchC1At cl).isEmpty then
    (scanAll matchC2At cl).foldl
      (fun acc g =>
        addIfNewC acc (g.2.1 ++ (if g.1.isEmpty then ['电'] else g.1) ++ g.2.2.1, g.2.2.2)) c1
  else c1

/-- Classes accumulated after the tier-3 block (run only when nothing so far). -/
def stageC3 (cl : List Char) : List (List Char × Option Nat) :=
  let c := stageC2 cl
  if c.isEmpty then
    (scanAll matchC3At cl).foldl
      (fun acc g => addIfNewC acc (g.1 ++ '电' :: g.2.1, g.2.2)) c
  else c

/-- Classes accumulated after the tier-4 block (run only when nothing so far). -/
def stageC4 (cl : List Char) : List (List Char × Option Nat) :=
  let c := stageC3 cl
  if c.isEmpty then
    (scanAll matchC4At cl).foldl
      (fun acc g =>
        if g.1.length = 3 then addIfNewC acc (g.1.take 2 ++ '电' :: g.1.drop 2, g.2) else acc) c
  else c

/-- Model of `parse_class_info_new_format`: clean, then the four tier blocks. -/
def parse_class_info_new_format (s : List Char) : List (List Char × Option Nat) :=
  stageC4 (cleanC s)

/-- Model of `get_class_sort_key` from `process_westlake`. -/
def get_class_sort_key (c : List Char) : Nat :=
  match c with
  | d1 :: d2 :: _ =>
    if d1.isDigit && d2.isDigit then
      if ((c.reverse.takeWhile Char.isDigit).reverse).isEmpty then
        natOfDigits [d1, d2] * 100
      else
        natOfDigits [d1, d2] * 100 + natOfDigits ((c.reverse.takeWhile Char.isDigit).reverse)
    else 999999
  | _ => 999999

/-! Data model of the three endpoint pipelines.  A table is a header list
plus a list of rows of cell values; a cell is a string, a missing value
(pandas `NaN`), or a number.  `str()`-coercion and the `pd.isna(...) or
str(...).strip() == ''` skip test are modelled by `cellStr`/`isBlankVal`. -/

/-- A spreadsheet cell value. -/
inductive CellVal : Type
  | str (s : String)
  | na
  | intval (n : Nat)
deriving DecidableEq, Repr

/-- Python `str()` of a cell value (`str(nan) = "nan"`). -/
def cellStr : CellVal → List Char
  | .str s => s.data
  | .na => ['n', 'a', 'n']
  | .intval n => (Nat.repr n).data

/-- The shared skip test `pd.isna(v) or str(v).strip() == ''`. -/
def isBlankVal : CellVal → Bool
  | .str s => s.data.all Char.isWhitespace
  | .na => true
  | .intval _ => false

/-- One expanded fact row: canonical class, book, publisher, ISBN, count. -/
structure Fact : Type where
  cls : List Char
  book : CellVal
  pub : CellVal
  isbn : CellVal
  cnt : Option Nat
deriving DecidableEq, Repr

/-- The 4-tuple deduplication key (count excluded). -/
def dedupKey (f : Fact) : List Char × CellVal × CellVal × CellVal :=
  (f.cls, f.book, f.pub, f.isbn)

/-- An output row: assigned sequence number (`None` modelling a failed
dictionary lookup in `.map`, proven impossible) plus the fact. -/
structure OutRow : Type where
  seq : Option Nat
  fact : Fact
deriving DecidableEq, Repr

/-- The error responses relevant to the core. -/
inductive PErr : Type
  | missingColumns
  | tooFewColumns
  | noData
deriving DecidableEq, Repr

/-- Result of one endpoint: the emitted rows or an error response. -/
inductive PResult : Type
  | ok (rows : List OutRow)
  | err (msg : PErr)
deriving DecidableEq, Repr

/-- Keyword table of `find_columns_by_keywords` for the class column. -/
def isClassCol (col : String) : Bool :=
  ["班级", "使用班级", "适用对象", "范围"].any (fun kw => hasSub kw.data col.data)

/-- Keyword table of `find_columns_by_keywords` for the book-name column. -/
def isBookCol (col : String) : Bool :=
  ["教材", "书名", "名称", "课本"].any (fun kw => hasSub kw.data col.data)

/-- Keyword table of `find_columns_by_keywords` for the publisher column. -/
def isPubCol (col : String) : Bool :=
  ["出版", "版社"].any (fun kw => hasSub kw.data col.data)

/-- Keyword table of `find_columns_by_keywords` for the ISBN column. -/
def isIsbnCol (col : String) : Bool :=
  ["书号", "ISBN", "isbn", "标准号"].any (fun kw => hasSub kw.data col.data)

/-- Cell of a row at a column index. -/
def cellAt (row : List CellVal) (i : Nat) : CellVal := row.getD i CellVal.na

/-- Cell at an optionally-resolved column, `""` when unresolved
(`row[found] if found else ""`). -/
def optCellAt (row : List CellVal) : Option Nat → CellVal
  | some i => cellAt row i
  | none => CellVal.str ""

/-- Sequence numbering stage shared by all three endpoints: the unique class
list in current row order, then `{name: i}` lookup per row. -/
def assignSeq (facts : List Fact) : List OutRow :=
  let cs := dedupK (fun c => c) (facts.map Fact.cls)
  facts.map (fun f => ⟨(idxOf? f.cls cs).map (· + 1), f⟩)

/-- Dialect A sort comparator: `sort_values(['年份', '专业班级'],
ascending=[False, True])` on `year = cls[:2]`, `rest = cls[2:]`. -/
def leA (f g : Fact) : Bool :=
  if f.cls.take 2 = g.cls.take 2 then lexLe (f.cls.drop 2) (g.cls.drop 2)
  else lexLe (g.cls.take 2) (f.cls.take 2)

/-- Raw (pre-normalization) fact rows of `process_excel`. -/
def excelRawFacts (ci bi : Nat) (pi ii : Option Nat) (rows : List (List CellVal)) :
    List Fact :=
  rows.flatMap (fun row =>
    (parse_class_info (cellStr (cellAt row ci))).map (fun e =>
      ⟨e.1, cellAt row bi, optCellAt row pi, optCellAt row ii, some e.2⟩))

/-- The fact rows of `process_excel` after the normalization column is
added (`result_df['班级'] = result_df['原始班级'].apply(...)`). -/
def excelAllFacts (ci bi : Nat) (pi ii : Option Nat) (rows : List (List CellVal)) :
    List Fact :=
  (excelRawFacts ci bi pi ii rows).map
    (fun f => { f with cls := normalize_class_name_final f.cls })

/-- The `process_excel` endpoint core: resolve columns, expand, normalize,
dedup, sort `(year desc, rest asc)`, number. -/
def process_excel (hdrs : List String) (rows : List (List CellVal)) : PResult :=
  match firstIdx? isClassCol hdrs, firstIdx? isBookCol hdrs with
  | some ci, some bi =>
    if (excelRawFacts ci bi (firstIdx? isPubCol hdrs) (firstIdx? isIsbnCol hdrs)
        rows).isEmpty then .err .noData
    else
      .ok (assignSeq (isort leA (dedupK dedupKey
        (excelAllFacts ci bi (firstIdx? isPubCol hdrs) (firstIdx? isIsbnCol hdrs) rows))))
  | _, _ => .err .missingColumns

/-- Model of `str.replace('班', '')` (removes every `班`). -/
def stripBan (c : List Char) : List Char := c.filter (fun ch => !(ch = '班'))

/-- The `.str.isnumeric()` filter applied after replacing `班`. -/
def isNumericStripped (c : List Char) : Bool :=
  !(stripBan c).isEmpty && (stripBan c).all Char.isDigit

/-- Dialect B sort comparator: ascending on `int(cls.replace('班', ''))`. -/
def leB (f g : Fact) : Bool :=
  decide (natOfDigits (stripBan f.cls) ≤ natOfDigits (stripBan g.cls))

/-- Fact rows of `process_winter_homework` (blank/missing class cells are
skipped before parsing). -/
def winterFacts (ci bi : Nat) (pi ii : Option Nat) (rows : List (List CellVal)) :
    List Fact :=
  rows.flatMap (fun row =>
    if isBlankVal (cellAt row ci) then []
    else
      (parse_class_info_new (cellStr (cellAt row ci))).map (fun e =>
        ⟨e.1, cellAt row bi, optCellAt row pi, optCellAt row ii, some e.2⟩))

/-- The fact rows of `process_winter_homework` surviving the
`.str.isnumeric()` data-quality filter. -/
def winterKeptFacts (ci bi : Nat) (pi ii : Option Nat) (rows : List (List CellVal)) :
    List Fact :=
  (winterFacts ci bi pi ii rows).filter (fun f => isNumericStripped f.cls)

/-- The `process_winter_homework` endpoint core: resolve columns, expand,
numeric filter, sort ascending, dedup, number. -/
def process_winter_homework (hdrs : List String) (rows : List (List CellVal)) : PResult :=
  match firstIdx? isClassCol hdrs, firstIdx? isBookCol hdrs with
  | some ci, some bi =>
    if (winterFacts ci bi (firstIdx? isPubCol hdrs) (firstIdx? isIsbnCol hdrs)
        rows).isEmpty then .err .noData
    else
      .ok (assignSeq (dedupK dedupKey (isort leB
        (winterKeptFacts ci bi (firstIdx? isPubCol hdrs) (firstIdx? isIsbnCol hdrs) rows))))
  | _, _ => .err .missingColumns

/-- Dialect C sort comparator: ascending on `get_class_sort_key`. -/
def leC (f g : Fact) : Bool :=
  decide (get_class_sort_key f.cls ≤ get_class_sort_key g.cls)

/-- Fact rows of `process_westlake` over the positional columns
`[序号, 教材名称, 出版社, 书号, 使用班级]` (blank class cells skipped). -/
def westlakeFacts (dat : List (List CellVal)) : List Fact :=
  dat.flatMap (fun row =>
    if isBlankVal (cellAt row 4) then []
    else
      (parse_class_info_new_format (cellStr (cellAt row 4))).map (fun e =>
        ⟨e.1, cellAt row 1, cellAt row 2, cellAt row 3, e.2⟩))

/-- The data rows of `process_westlake`: columns truncated to five, first
row dropped. -/
def westlakeData (rows : List (List CellVal)) : List (List CellVal) :=
  (rows.map (fun r => r.take 5)).drop 1

/-- The `process_westlake` endpoint core: positional columns (5 required,
fewer raises, modelled as `tooFewColumns`), drop the first data row, expand,
sort ascending on the derived key, dedup, number. -/
def process_westlake (hdrs : List String) (rows : List (List CellVal)) : PResult :=
  if hdrs.length < 5 then .err .tooFewColumns
  else
    if (westlakeFacts (westlakeData rows)).isEmpty then .err .noData
    else .ok (assignSeq (dedupK dedupKey (isort leC (westlakeFacts (westlakeData rows)))))

/-- Bijective sequence numbering over an output row list (C3): every row
carries a number in `1..N` for `N` the number of distinct canonical classes,
every number in `1..N` occurs, and two rows share a number exactly when they
share a canonical class. -/
def SeqBijective (out : List OutRow) : Prop :=
  (∀ r ∈ out, ∃ i, r.seq = some i ∧ 1 ≤ i ∧
    i ≤ (out.map (fun r => r.fact.cls)).toFinset.card) ∧
  (∀ i, 1 ≤ i → i ≤ (out.map (fun r => r.fact.cls)).toFinset.card →
    ∃ r ∈ out, r.seq = some i) ∧
  (∀ r s, r ∈ out → s ∈ out → (r.seq = s.seq ↔ r.fact.cls = s.fact.cls))

/-! Lemmas about substring containment and the canonicalizer search. -/

theorem startsList_subset (n : List Char) :
    ∀ l : List Char, startsList n l = true → ∀ x ∈ n, x ∈ l := by
  induction n with
  | nil => simp
  | cons a as ih =>
    intro l h x hx
    cases l with
    | nil => simp [startsList] at h
    | cons b bs =>
      simp only [startsList, Bool.and_eq_true, decide_eq_true_eq] at h
      obtain ⟨rfl, h2⟩ := h
      rcases List.mem_cons.mp hx with rfl | hx
      · exact List.mem_cons_self _ _
      · exact List.mem_cons_of_mem _ (ih bs h2 x hx)

theorem hasSub_subset (n : List Char) :
    ∀ l : List Char, hasSub n l = true → ∀ x ∈ n, x ∈ l := by
  intro l
  induction l with
  | nil =>
    intro h x hx
    cases n with
    | nil => simp at hx
    | cons c cs => simp [hasSub, List.isEmpty] at h
  | cons c rest ih =>
    intro h x hx
    simp only [hasSub, Bool.or_eq_true] at h
    rcases h with h | h
    · exact startsList_subset n _ h x hx
    · exact List.mem_cons_of_mem _ (ih h x hx)

theorem classNameMatchAt_sound (l g : List Char) (h : classNameMatchAt l = some g) :
    ∀ ch ∈ g, goodN ch = true ∧ ch ∈ l := by
  match l with
  | [] => simp [classNameMatchAt] at h
  | [a] => simp [classNameMatchAt] at h
  | a :: c :: rest =>
    simp only [classNameMatchAt] at h
    by_cases h1 : (a = '2' && (c = '4' || c = '5')) = true
    · rw [if_pos h1] at h
      by_cases h2 : (rest.takeWhile goodN).isEmpty = true
      · rw [if_pos h2] at h
        exact absurd h (by simp)
      · rw [if_neg h2] at h
        injection h with h
        subst h
        simp only [Bool.and_eq_true, Bool.or_eq_true, decide_eq_true_eq] at h1
        obtain ⟨rfl, hc⟩ := h1
        intro ch hch
        rcases List.mem_cons.mp hch with rfl | hch
        · exact ⟨by decide, List.mem_cons_self _ _⟩
        · rcases List.mem_cons.mp hch with rfl | hch
          · refine ⟨?_, List.mem_cons_of_mem _ (List.mem_cons_self _ _)⟩
            rcases hc with rfl | rfl <;> decide
          · exact ⟨List.mem_takeWhile_imp hch,
              List.mem_cons_of_mem _ (List.mem_cons_of_mem _
                ((List.takeWhile_sublist _).mem hch))⟩
    · rw [if_neg h1] at h
      exact absurd h (by simp)

theorem searchClassName_sound (x g : List Char) (h : searchClassName x = some g) :
    ∀ ch ∈ g, goodN ch = true ∧ ch ∈ x := by
  induction x with
  | nil => simp [searchClassName] at h
  | cons a t ih =>
    rw [searchClassName] at h
    cases hm : classNameMatchAt (a :: t) with
    | some g2 =>
      rw [hm] at h
      injection h with h
      subst h
      exact classNameMatchAt_sound _ _ hm
    | none =>
      rw [hm] at h
      intro ch hch
      exact ⟨(ih h ch hch).1, List.mem_cons_of_mem _ (ih h ch hch).2⟩

theorem normalizeGradeStep_of_no_grade (y : List Char) (hy : '级' ∉ y) :
    normalizeGradeStep y = y := by
  simp [normalizeGradeStep, hy]

theorem normalize_fixed_point (y : List Char) (hrp : '）' ∉ y) (hgr : '级' ∉ y) :
    normalize_class_name_final y = y := by
  have h1 : hasSub ['人', '）'] y = false := by
    cases h2 : hasSub ['人', '）'] y with
    | false => rfl
    | true => exact absurd (hasSub_subset _ y h2 '）' (by simp)) hrp
  unfold normalize_class_name_final
  rw [h1]
  simp only [decide_eq_true_eq, Bool.false_or]
  rw [if_neg (by simpa using hrp)]
  exact normalizeGradeStep_of_no_grade y hgr

/-- C1 (amended): the canonicalizer is idempotent on every raw id that does
not contain the grade marker `级`. -/
theorem canonicalize_idempotent_of_no_grade (x : List Char) (h : '级' ∉ x) :
    normalize_class_name_final (normalize_class_name_final x) =
      normalize_class_name_final x := by
  by_cases hc : (hasSub ['人', '）'] x || decide ('）' ∈ x)) = true
  · cases hs : searchClassName x with
    | some g =>
      have hval : normalize_class_name_final x = g := by
        unfold normalize_class_name_final
        rw [if_pos hc, hs]
      have hg := searchClassName_sound x g hs
      have hrp : '）' ∉ g := by
        intro hmem
        have := (hg _ hmem).1
        simp [goodN] at this
      have hgr : '级' ∉ g := fun hmem => h ((hg _ hmem).2)
      rw [hval]
      exact normalize_fixed_point g hrp hgr
    | none =>
      have hval : normalize_class_name_final x = x := by
        unfold normalize_class_name_final
        rw [if_pos hc, hs]
        exact normalizeGradeStep_of_no_grade x h
      rw [hval, hval]
  · have hval : normalize_class_name_final x = x := by
      unfold normalize_class_name_final
      rw [if_neg hc]
      exact normalizeGradeStep_of_no_grade x h
    rw [hval, hval]

/-- C1 witness: the amended idempotence theorem applied at the concrete
already-canonical id `24护理1班`. -/
theorem canonicalize_idempotent_witness :
    normalize_class_name_final (normalize_class_name_final ("24护理1班".data)) =
      normalize_class_name_final ("24护理1班".data) :=
  canonicalize_idempotent_of_no_grade ("24护理1班".data) (by decide)

/-- C1 counterexample: `normalize_class_name_final` is not idempotent on the
dialect-A raw id `24护理1班级` (a cell `24护理1班级（45人）` parses to exactly
this raw id): one application gives `24理1班级`, a second gives `241班级`. -/
theorem canonicalize_not_idempotent_counterexample :
    normalize_class_name_final (normalize_class_name_final ("24护理1班级".data)) ≠
      normalize_class_name_final ("24护理1班级".data) ∧
    parse_class_info ("24护理1班级（45人）".data) = [(("24护理1班级").data, 45)] ∧
    normalize_class_name_final ("24护理1班级".data) = ("24理1班级").data ∧
    normalize_class_name_final (("24理1班级").data) = ("241班级").data := by
  refine ⟨by decide, ?_, by decide, by decide⟩
  simp [parse_class_info, scanAll, matchA1At, matchA2At, goodA, natOfDigits]

/-! Lemmas for the sequence-numbering stage (C3). -/

theorem idxOf?_eq_some_lt {α : Type} [DecidableEq α] (x : α) :
    ∀ (l : List α) (i : Nat), idxOf? x l = some i → i < l.length ∧ l[i]? = some x := by
  intro l
  induction l with
  | nil => intro i h; simp [idxOf?] at h
  | cons a t ih =>
    intro i h
    by_cases ha : a = x
    · rw [idxOf?, if_pos ha] at h
      injection h with h
      subst h
      simp [ha]
    · rw [idxOf?, if_neg ha] at h
      rcases Option.map_eq_some'.mp h with ⟨j, hj, rfl⟩
      obtain ⟨hlt, hget⟩ := ih j hj
      constructor
      · simpa using Nat.succ_lt_succ hlt
      · simpa using hget

theorem idxOf?_mem {α : Type} [DecidableEq α] (x : α) :
    ∀ l : List α, x ∈ l → ∃ i, idxOf? x l = some i := by
  intro l
  induction l with
  | nil => simp
  | cons a t ih =>
    intro hx
    by_cases ha : a = x
    · exact ⟨0, by rw [idxOf?, if_pos ha]⟩
    · have hx2 : x ∈ t := by
        rcases List.mem_cons.mp hx with rfl | hx2
        · exact absurd rfl ha
        · exact hx2
      obtain ⟨i, hi⟩ := ih hx2
      exact ⟨i + 1, by rw [idxOf?, if_neg ha, hi]; rfl⟩

theorem idxOf?_get_of_nodup {α : Type} [DecidableEq α] :
    ∀ (l : List α), l.Nodup → ∀ (i : Nat) (hi : i < l.length),
      idxOf? (l.get ⟨i, hi⟩) l = some i := by
  intro l
  induction l with
  | nil => intro _ i hi; simp at hi
  | cons a t ih =>
    intro hnd i hi
    obtain ⟨hna, hndt⟩ := List.nodup_cons.mp hnd
    cases i with
    | zero => rw [idxOf?]; simp
    | succ j =>
      have hj : j < t.length := by
        have := hi
        simp only [List.length_cons] at this
        omega
      have hget : (a :: t).get ⟨j + 1, hi⟩ = t.get ⟨j, hj⟩ := by simp
      have hmem : t.get ⟨j, hj⟩ ∈ t := List.get_mem t j hj
      have hne : a ≠ (a :: t).get ⟨j + 1, hi⟩ := by
        rw [hget]
        exact fun h => hna (h ▸ hmem)
      rw [idxOf?, if_neg hne, hget, ih hndt j hj]
      rfl

theorem mem_dedupK_id {α : Type} [DecidableEq α] (l : List α) (x : α) :
    x ∈ dedupK (fun c => c) l ↔ x ∈ l := by
  constructor
  · exact fun h => dedupK_subset (fun c => c) l.length l le_rfl x h
  · intro h
    rcases dedupK_complete (fun c => c) l.length l le_rfl x h with ⟨c, hc, hcx⟩
    exact hcx ▸ hc

theorem nodup_dedupK_id {α : Type} [DecidableEq α] (l : List α) :
    (dedupK (fun c => c) l).Nodup :=
  dedupK_pairwise (fun c => c) l.length l le_rfl

theorem assignSeq_bijective (facts : List Fact) : SeqBijective (assignSeq facts) := by
  have hmap : (assignSeq facts).map (fun r => r.fact.cls) = facts.map Fact.cls := by
    simp [assignSeq, List.map_map]
  have hN : (facts.map Fact.cls).toFinset.card =
      (dedupK (fun c => c) (facts.map Fact.cls)).length := by
    have h1 : (dedupK (fun c => c) (facts.map Fact.cls)).toFinset =
        (facts.map Fact.cls).toFinset := by
      apply Finset.ext
      intro a
      simp [List.mem_toFinset, mem_dedupK_id]
    rw [← h1, List.toFinset_card_of_nodup (nodup_dedupK_id _)]
  refine ⟨?_, ?_, ?_⟩
  · intro r hr
    simp only [assignSeq, List.mem_map] at hr
    obtain ⟨f, hf, rfl⟩ := hr
    have hcls : f.cls ∈ dedupK (fun c => c) (facts.map Fact.cls) :=
      (mem_dedupK_id _ _).mpr (List.mem_map_of_mem _ hf)
    obtain ⟨i, hi⟩ := idxOf?_mem _ _ hcls
    obtain ⟨hlt, _⟩ := idxOf?_eq_some_lt _ _ _ hi
    refine ⟨i + 1, by simp [hi], by omega, ?_⟩
    rw [hmap, hN]
    omega
  · intro i h1 hle
    rw [hmap, hN] at hle
    have hi : i - 1 < (dedupK (fun c => c) (facts.map Fact.cls)).length := by omega
    have hcm : (dedupK (fun c => c) (facts.map Fact.cls)).get ⟨i - 1, hi⟩ ∈
        dedupK (fun c => c) (facts.map Fact.cls) := List.get_mem _ _ _
    have hcm2 := (mem_dedupK_id _ _).mp hcm
    obtain ⟨f, hf, hfc⟩ := List.mem_map.mp hcm2
    refine ⟨⟨(idxOf? f.cls (dedupK (fun c => c) (facts.map Fact.cls))).map (· + 1), f⟩,
      ?_, ?_⟩
    · simp only [assignSeq, List.mem_map]
      exact ⟨f, hf, rfl⟩
    · have heq : idxOf? f.cls (dedupK (fun c => c) (facts.map Fact.cls)) = some (i - 1) := by
        rw [hfc]
        exact idxOf?_get_of_nodup _ (nodup_dedupK_id _) (i - 1) hi
      simp only [heq, Option.map_some']
      congr 1
      omega
  · intro r s hr hs
    simp only [assignSeq, List.mem_map] at hr hs
    obtain ⟨f, hf, rfl⟩ := hr
    obtain ⟨g, hg, rfl⟩ := hs
    have hfc : f.cls ∈ dedupK (fun c => c) (facts.map Fact.cls) :=
      (mem_dedupK_id _ _).mpr (List.mem_map_of_mem _ hf)
    have hgc : g.cls ∈ dedupK (fun c => c) (facts.map Fact.cls) :=
      (mem_dedupK_id _ _).mpr (List.mem_map_of_mem _ hg)
    obtain ⟨i, hi⟩ := idxOf?_mem _ _ hfc
    obtain ⟨j, hj⟩ := idxOf?_mem _ _ hgc
    constructor
    · intro hseq
      simp only [hi, hj, Option.map_some'] at hseq
      have hij : i = j := by
        injection hseq with hseq
        omega
      subst hij
      obtain ⟨_, hgi⟩ := idxOf?_eq_some_lt _ _ _ hi
      obtain ⟨_, hgj⟩ := idxOf?_eq_some_lt _ _ _ hj
      rw [hgi] at hgj
      injection hgj
    · intro hcls
      simp only
      rw [hcls]

/-! Extraction lemmas: a successful endpoint result is a numbered list. -/

theorem process_excel_ok_form (hdrs : List String) (rows : List (List CellVal))
    (out : List OutRow) (h : process_excel hdrs rows = .ok out) :
    ∃ fs, out = assignSeq fs := by
  unfold process_excel at h
  split at h
  · split at h
    · simp at h
    · exact ⟨_, by injection h with h; exact h.symm⟩
  · simp at h

theorem process_winter_ok_form (hdrs : List String) (rows : List (List CellVal))
    (out : List OutRow) (h : process_winter_homework hdrs rows = .ok out) :
    ∃ fs, out = assignSeq fs := by
  unfold process_winter_homework at h
  split at h
  · split at h
    · simp at h
    · exact ⟨_, by injection h with h; exact h.symm⟩
  · simp at h

theorem process_westlake_ok_form (hdrs : List String) (rows : List (List CellVal))
    (out : List OutRow) (h : process_westlake hdrs rows = .ok out) :
    ∃ fs, out = assignSeq fs := by
  unfold process_westlake at h
  split at h
  · simp at h
  · split at h
    · simp at h
    · exact ⟨_, by injection h with h; exact h.symm⟩

/-- C3: for every dialect run that produces output, the assigned sequence
numbers are a bijection between the distinct canonical classes of the output
and `{1, …, N}`: every row's number lies in `1..N` with `N` the number of
distinct classes, every number in `1..N` is assigned, and rows share a
number exactly when they share a class. -/
theorem seq_numbering_bijective (hdrs : List String) (rows : List (List CellVal))
    (out : List OutRow) :
    (process_excel hdrs rows = .ok out → SeqBijective out) ∧
    (process_winter_homework hdrs rows = .ok out → SeqBijective out) ∧
    (process_westlake hdrs rows = .ok out → SeqBijective out) := by
  refine ⟨fun h => ?_, fun h => ?_, fun h => ?_⟩
  · obtain ⟨fs, rfl⟩ := process_excel_ok_form hdrs rows out h
    exact assignSeq_bijective fs
  · obtain ⟨fs, rfl⟩ := process_winter_ok_form hdrs rows out h
    exact assignSeq_bijective fs
  · obtain ⟨fs, rfl⟩ := process_westlake_ok_form hdrs rows out h
    exact assignSeq_bijective fs

/-! Column-resolution lemmas and C4. -/

theorem firstIdx?_eq_none {α : Type} (p : α → Bool) :
    ∀ l : List α, firstIdx? p l = none ↔ ∀ a ∈ l, p a = false := by
  intro l
  induction l with
  | nil => simp [firstIdx?]
  | cons a t ih =>
    rw [firstIdx?]
    by_cases hp : p a = true
    · rw [if_pos hp]
      simp [hp]
    · have hp' : p a = false := by revert hp; cases p a <;> simp
      rw [if_neg hp]
      simp [ih, hp']

/-- C4: on a table whose class-string column or book-name column cannot be
resolved, each pipeline reports a configuration error immediately (for the
keyword-resolved dialects A and B a missing-columns error; for the positional
dialect C a too-few-columns failure) and emits no rows. -/
theorem missing_columns_config_error (hdrs : List String) (rows : List (List CellVal)) :
    (((∀ c ∈ hdrs, isClassCol c = false) ∨ (∀ c ∈ hdrs, isBookCol c = false)) →
      process_excel hdrs rows = .err .missingColumns ∧
      process_winter_homework hdrs rows = .err .missingColumns) ∧
    (hdrs.length < 5 → process_westlake hdrs rows = .err .tooFewColumns) := by
  constructor
  · intro h
    have h2 : firstIdx? isClassCol hdrs = none ∨ firstIdx? isBookCol hdrs = none := by
      rcases h with h | h
      · exact Or.inl ((firstIdx?_eq_none _ _).mpr h)
      · exact Or.inr ((firstIdx?_eq_none _ _).mpr h)
    constructor
    · unfold process_excel
      rcases h2 with h2 | h2
      · rw [h2]
      · rw [h2]
        cases firstIdx? isClassCol hdrs <;> rfl
    · unfold process_winter_homework
      rcases h2 with h2 | h2
      · rw [h2]
      · rw [h2]
        cases firstIdx? isClassCol hdrs <;> rfl
  · intro h
    unfold process_westlake
    rw [if_pos h]

/-- C4 witness: a single unrecognizable header column triggers the
configuration error on all three endpoints. -/
theorem missing_columns_config_error_witness :
    (process_excel ["甲"] [] = .err .missingColumns ∧
      process_winter_homework ["甲"] [] = .err .missingColumns) ∧
    process_westlake ["甲"] [] = .err .tooFewColumns :=
  ⟨(missing_columns_config_error ["甲"] []).1 (Or.inl (by decide)),
    (missing_columns_config_error ["甲"] []).2 (by decide)⟩

/-! Order lemmas for the dialect-A comparator and the strong shape of each
endpoint's successful result. -/

theorem leA_refl_of_cls (f g : Fact) (h : f.cls = g.cls) : leA f g = true := by
  unfold leA
  rw [h, if_pos rfl]
  exact lexLe_refl _

theorem leA_trans (f g k : Fact) (h1 : leA f g = true) (h2 : leA g k = true) :
    leA f k = true := by
  unfold leA at h1 h2 ⊢
  by_cases e1 : f.cls.take 2 = g.cls.take 2
  · rw [if_pos e1] at h1
    by_cases e2 : g.cls.take 2 = k.cls.take 2
    · rw [if_pos e2] at h2
      rw [if_pos (e1.trans e2)]
      exact lexLe_trans _ _ _ h1 h2
    · rw [if_neg e2] at h2
      rw [if_neg (fun e => e2 (e1.symm.trans e))]
      rw [← e1] at h2
      exact h2
  · rw [if_neg e1] at h1
    by_cases e2 : g.cls.take 2 = k.cls.take 2
    · rw [if_pos e2] at h2
      rw [if_neg (fun e => e1 (e.trans e2.symm))]
      rw [← e2]
      exact h1
    · rw [if_neg e2] at h2
      by_cases e3 : f.cls.take 2 = k.cls.take 2
      · rw [e3] at h1
        have : g.cls.take 2 = k.cls.take 2 := lexLe_antisymm _ _ h1 h2
        exact absurd this e2
      · rw [if_neg e3]
        exact lexLe_trans _ _ _ h2 h1

theorem leA_total (f g : Fact) : leA f g = true ∨ leA g f = true := by
  unfold leA
  by_cases e : f.cls.take 2 = g.cls.take 2
  · rw [if_pos e, if_pos e.symm]
    exact lexLe_total _ _
  · rw [if_neg e, if_neg (fun e2 => e e2.symm)]
    exact lexLe_total _ _

theorem leA_key (f g : Fact) (h : dedupKey f = dedupKey g) : leA f g = true :=
  leA_refl_of_cls f g (congrArg (fun p => p.1) h)

theorem assignSeq_map_fact (fs : List Fact) : (assignSeq fs).map OutRow.fact = fs := by
  unfold assignSeq
  rw [List.map_map]
  exact List.map_id fs

theorem process_excel_ok_strong (hdrs : List String) (rows : List (List CellVal))
    (out : List OutRow) (h : process_excel hdrs rows = .ok out) :
    ∃ ci bi, firstIdx? isClassCol hdrs = some ci ∧ firstIdx? isBookCol hdrs = some bi ∧
      out = assignSeq (isort leA (dedupK dedupKey
        (excelAllFacts ci bi (firstIdx? isPubCol hdrs) (firstIdx? isIsbnCol hdrs) rows))) := by
  unfold process_excel at h
  split at h
  · rename_i ci bi hci hbi
    split at h
    · simp at h
    · exact ⟨ci, bi, hci, hbi, by injection h with h; exact h.symm⟩
  · simp at h

theorem process_winter_ok_strong (hdrs : List String) (rows : List (List CellVal))
    (out : List OutRow) (h : process_winter_homework hdrs rows = .ok out) :
    ∃ ci bi, firstIdx? isClassCol hdrs = some ci ∧ firstIdx? isBookCol hdrs = some bi ∧
      out = assignSeq (dedupK dedupKey (isort leB
        (winterKeptFacts ci bi (firstIdx? isPubCol hdrs) (firstIdx? isIsbnCol hdrs) rows))) := by
  unfold process_winter_homework at h
  split at h
  · rename_i ci bi hci hbi
    split at h
    · simp at h
    · exact ⟨ci, bi, hci, hbi, by injection h with h; exact h.symm⟩
  · simp at h

theorem process_westlake_ok_strong (hdrs : List String) (rows : List (List CellVal))
    (out : List OutRow) (h : process_westlake hdrs rows = .ok out) :
    out = assignSeq (dedupK dedupKey (isort leC (westlakeFacts (westlakeData rows)))) := by
  unfold process_westlake at h
  split at h
  · simp at h
  · split at h
    · simp at h
    · injection h with h
      exact h.symm

/-- C7: on a successful dialect-A run the emitted rows are ordered by
`(year descending, rest ascending)`: between consecutive rows the first two
characters of the canonical id never increase, and when they are equal the
remainder is lexicographically non-decreasing. -/
theorem dialectA_output_sorted (hdrs : List String) (rows : List (List CellVal))
    (out : List OutRow) (h : process_excel hdrs rows = .ok out) :
    out.Chain' (fun r s =>
      lexLe (s.fact.cls.take 2) (r.fact.cls.take 2) = true ∧
      (r.fact.cls.take 2 = s.fact.cls.take 2 →
        lexLe (r.fact.cls.drop 2) (s.fact.cls.drop 2) = true)) := by
  obtain ⟨ci, bi, _, _, rfl⟩ := process_excel_ok_strong hdrs rows out h
  have hsorted := isort_pairwise leA leA_trans leA_total
    (dedupK dedupKey (excelAllFacts ci bi (firstIdx? isPubCol hdrs)
      (firstIdx? isIsbnCol hdrs) rows))
  have hout : (assignSeq (isort leA (dedupK dedupKey (excelAllFacts ci bi
      (firstIdx? isPubCol hdrs) (firstIdx? isIsbnCol hdrs) rows)))).Pairwise
      (fun r s : OutRow => leA r.fact s.fact = true) := by
    unfold assignSeq
    exact List.pairwise_map.mpr hsorted
  refine List.Pairwise.chain' (hout.imp ?_)
  intro r s hle
  unfold leA at hle
  by_cases e : r.fact.cls.take 2 = s.fact.cls.take 2
  · rw [if_pos e] at hle
    exact ⟨by rw [← e]; exact lexLe_refl _, fun _ => hle⟩
  · rw [if_neg e] at hle
    exact ⟨hle, fun he => absurd he e⟩

/-- C7 witness: a two-row dialect-A run whose output interleaves two cohort
years, with the newer year emitted first. -/
theorem dialectA_output_sorted_witness :
    List.Chain' (fun r s : OutRow =>
      lexLe (s.fact.cls.take 2) (r.fact.cls.take 2) = true ∧
      (r.fact.cls.take 2 = s.fact.cls.take 2 →
        lexLe (r.fact.cls.drop 2) (s.fact.cls.drop 2) = true))
      [⟨some 1, ⟨"25会计1班".data, .str "B", .str "", .str "", some 30⟩⟩,
       ⟨some 2, ⟨"24护理1班".data, .str "B", .str "", .str "", some 45⟩⟩] := by
  refine dialectA_output_sorted ["教材", "班级"]
    [[.str "B", .str "24护理1班（45人）"], [.str "B", .str "25会计1班（30人）"]] _ ?_
  simp [process_excel, excelRawFacts, excelAllFacts, firstIdx?, isClassCol, isBookCol,
    isPubCol, isIsbnCol, hasSub, startsList, cellAt, optCellAt, cellStr, parse_class_info,
    scanAll, matchA1At, matchA2At, goodA, natOfDigits, normalize_class_name_final,
    searchClassName, classNameMatchAt, goodN, normalizeGradeStep, dedupK, dedupKey, isort,
    insSorted, leA, lexLe, assignSeq, idxOf?]

/-- C2: on every successful run, no two output rows share the 4-tuple
`(canonical_class, book, publisher, isbn)`, and the emitted fact list is
exactly the first occurrence per 4-tuple of the sorted expanded fact list —
for dialects B and C literally (dedup runs after the sort), and for dialect A
the pre-sort dedup it performs coincides with post-sort dedup because the
sort key is a function of the dedup key and the modelled sort is stable. -/
theorem dedup_first_per_key_in_sort_order (hdrs : List String)
    (rows : List (List CellVal)) (out : List OutRow) :
    (process_excel hdrs rows = .ok out →
      out.Pairwise (fun r s => dedupKey r.fact ≠ dedupKey s.fact) ∧
      ∀ ci bi, firstIdx? isClassCol hdrs = some ci →
        firstIdx? isBookCol hdrs = some bi →
        out.map OutRow.fact = dedupK dedupKey (isort leA
          (excelAllFacts ci bi (firstIdx? isPubCol hdrs)
            (firstIdx? isIsbnCol hdrs) rows))) ∧
    (process_winter_homework hdrs rows = .ok out →
      out.Pairwise (fun r s => dedupKey r.fact ≠ dedupKey s.fact) ∧
      ∀ ci bi, firstIdx? isClassCol hdrs = some ci →
        firstIdx? isBookCol hdrs = some bi →
        out.map OutRow.fact = dedupK dedupKey (isort leB
          (winterKeptFacts ci bi (firstIdx? isPubCol hdrs)
            (firstIdx? isIsbnCol hdrs) rows))) ∧
    (process_westlake hdrs rows = .ok out →
      out.Pairwise (fun r s => dedupKey r.fact ≠ dedupKey s.fact) ∧
      out.map OutRow.fact = dedupK dedupKey (isort leC
        (westlakeFacts (westlakeData rows)))) := by
  refine ⟨fun h => ?_, fun h => ?_, fun h => ?_⟩
  · obtain ⟨ci, bi, hci, hbi, rfl⟩ := process_excel_ok_strong hdrs rows out h
    have hmapf : (assignSeq (isort leA (dedupK dedupKey (excelAllFacts ci bi
        (firstIdx? isPubCol hdrs) (firstIdx? isIsbnCol hdrs) rows)))).map OutRow.fact =
        dedupK dedupKey (isort leA (excelAllFacts ci bi (firstIdx? isPubCol hdrs)
          (firstIdx? isIsbnCol hdrs) rows)) := by
      rw [assignSeq_map_fact]
      exact (sort_dedup_eq_dedup_sort leA dedupKey leA_trans leA_total leA_key _).symm
    constructor
    · have hP : ((assignSeq (isort leA (dedupK dedupKey (excelAllFacts ci bi
          (firstIdx? isPubCol hdrs) (firstIdx? isIsbnCol hdrs) rows)))).map
          OutRow.fact).Pairwise (fun x y => dedupKey x ≠ dedupKey y) := by
        rw [hmapf]
        exact dedupK_pairwise dedupKey _ _ le_rfl
      have h2 := List.pairwise_map.mp hP
      exact h2
    · intro ci2 bi2 hci2 hbi2
      rw [hci, Option.some.injEq] at hci2
      rw [hbi, Option.some.injEq] at hbi2
      subst hci2
      subst hbi2
      exact hmapf
  · obtain ⟨ci, bi, hci, hbi, rfl⟩ := process_winter_ok_strong hdrs rows out h
    have hmapf := assignSeq_map_fact (dedupK dedupKey (isort leB
      (winterKeptFacts ci bi (firstIdx? isPubCol hdrs) (firstIdx? isIsbnCol hdrs) rows)))
    constructor
    · have hP : ((assignSeq (dedupK dedupKey (isort leB (winterKeptFacts ci bi
          (firstIdx? isPubCol hdrs) (firstIdx? isIsbnCol hdrs) rows)))).map
          OutRow.fact).Pairwise (fun x y => dedupKey x ≠ dedupKey y) := by
        rw [hmapf]
        exact dedupK_pairwise dedupKey _ _ le_rfl
      have h2 := List.pairwise_map.mp hP
      exact h2
    · intro ci2 bi2 hci2 hbi2
      rw [hci, Option.some.injEq] at hci2
      rw [hbi, Option.some.injEq] at hbi2
      subst hci2
      subst hbi2
      exact hmapf
  · obtain rfl := process_westlake_ok_strong hdrs rows out h
    have hmapf := assignSeq_map_fact (dedupK dedupKey (isort leC
      (westlakeFacts (westlakeData rows))))
    constructor
    · have hP : ((assignSeq (dedupK dedupKey (isort leC (westlakeFacts
          (westlakeData rows))))).map OutRow.fact).Pairwise
          (fun x y => dedupKey x ≠ dedupKey y) := by
        rw [hmapf]
        exact dedupK_pairwise dedupKey _ _ le_rfl
      have h2 := List.pairwise_map.mp hP
      exact h2
    · exact hmapf

/-- C3 witness: the bijective-numbering property on a concrete dialect-A run. -/
theorem seq_numbering_bijective_witness :
    SeqBijective [⟨some 1, ⟨"24护理1班".data, .str "B", .str "", .str "", some 45⟩⟩] :=
  (seq_numbering_bijective ["教材", "班级"] [[.str "B", .str "24护理1班（45人）"]] _).1
    (by simp [process_excel, excelRawFacts, excelAllFacts, firstIdx?, isClassCol, isBookCol,
      isPubCol, isIsbnCol, hasSub, startsList, cellAt, optCellAt, cellStr, parse_class_info,
      scanAll, matchA1At, matchA2At, goodA, natOfDigits, normalize_class_name_final,
      searchClassName, classNameMatchAt, goodN, normalizeGradeStep, dedupK, dedupKey, isort,
      insSorted, leA, lexLe, assignSeq, idxOf?])

/-- C2 witness: the dedup-in-sort-order characterisation instantiated on one
concrete run of each endpoint. -/
theorem dedup_first_per_key_in_sort_order_witness :
    ([⟨some 1, ⟨"24护理1班".data, .str "B", .str "", .str "", some 45⟩⟩] : List OutRow).map
        OutRow.fact =
      dedupK dedupKey (isort leA (excelAllFacts 1 0 (firstIdx? isPubCol ["教材", "班级"])
        (firstIdx? isIsbnCol ["教材", "班级"]) [[.str "B", .str "24护理1班（45人）"]])) ∧
    ([⟨some 1, ⟨"2401班".data, .str "B", .str "", .str "", some 40⟩⟩] : List OutRow).map
        OutRow.fact =
      dedupK dedupKey (isort leB (winterKeptFacts 1 0 (firstIdx? isPubCol ["教材", "班级"])
        (firstIdx? isIsbnCol ["教材", "班级"]) [[.str "B", .str "2401班 40人"]])) ∧
    ([⟨some 1, ⟨"23茶艺1".data, .str "B", .str "P", .str "I", some 45⟩⟩] : List OutRow).map
        OutRow.fact =
      dedupK dedupKey (isort leC (westlakeFacts (westlakeData
        [[.str "甲", .str "甲", .str "甲", .str "甲", .str "甲"],
         [.na, .str "B", .str "P", .str "I", .str "茶艺231-45"]]))) := by
  have hA : process_excel ["教材", "班级"] [[.str "B", .str "24护理1班（45人）"]] =
      .ok [⟨some 1, ⟨"24护理1班".data, .str "B", .str "", .str "", some 45⟩⟩] := by
    simp [process_excel, excelRawFacts, excelAllFacts, firstIdx?, isClassCol, isBookCol,
      isPubCol, isIsbnCol, hasSub, startsList, cellAt, optCellAt, cellStr, parse_class_info,
      scanAll, matchA1At, matchA2At, goodA, natOfDigits, normalize_class_name_final,
      searchClassName, classNameMatchAt, goodN, normalizeGradeStep, dedupK, dedupKey, isort,
      insSorted, leA, lexLe, assignSeq, idxOf?]
  have hB : process_winter_homework ["教材", "班级"] [[.str "B", .str "2401班 40人"]] =
      .ok [⟨some 1, ⟨"2401班".data, .str "B", .str "", .str "", some 40⟩⟩] := by
    simp [process_winter_homework, winterFacts, winterKeptFacts, firstIdx?, isClassCol,
      isBookCol, isPubCol, isIsbnCol, hasSub, startsList, cellAt, optCellAt, cellStr,
      isBlankVal, parse_class_info_new, scanAll, matchB1At, matchB2At, natOfDigits,
      isNumericStripped, stripBan, dedupK, dedupKey, isort, insSorted, leB, assignSeq, idxOf?]
  have hC : process_westlake ["a", "b", "c", "d", "e"]
      [[.str "甲", .str "甲", .str "甲", .str "甲", .str "甲"],
       [.na, .str "B", .str "P", .str "I", .str "茶艺231-45"]] =
      .ok [⟨some 1, ⟨"23茶艺1".data, .str "B", .str "P", .str "I", some 45⟩⟩] := by
    simp [process_westlake, westlakeFacts, westlakeData, cellAt, cellStr, isBlankVal,
      parse_class_info_new_format, cleanC, stripSeps, subFW, subAscii, isSep, stageC4,
      stageC3, stageC2, tier1EntriesC, scanAll, matchC1At, matchC2At, matchC3At, matchC4At,
      dashCount, isCJK, addIfNewC, natOfDigits, dedupK, dedupKey, isort, insSorted, leC,
      get_class_sort_key, assignSeq, idxOf?]
  refine ⟨((dedup_first_per_key_in_sort_order _ _ _).1 hA).2 1 0 (by decide) (by decide),
    ((dedup_first_per_key_in_sort_order _ _ _).2.1 hB).2 1 0 (by decide) (by decide),
    ((dedup_first_per_key_in_sort_order _ _ _).2.2 hC).2⟩

/-- C5 counterexample: on the cell `251` the entry `("25电1", None)` is
already present after the tier-2 block — the accumulated class list after
tiers 1–3 is nonempty — so the tier-4 block, which runs only when nothing
has matched so far, contributes nothing; the entry is not produced by
tier 4 as the claim states. -/
theorem dialectC_bare251_not_tier4_counterexample :
    stageC3 (cleanC ("251".data)) ≠ [] ∧
    stageC2 (cleanC ("251".data)) = [(("25电1").data, (none : Option Nat))] ∧
    scanAll matchC1At (cleanC ("251".data)) = [] ∧
    parse_class_info_new_format ("251".data) = stageC3 (cleanC ("251".data)) := by
  refine ⟨?_, ?_, ?_, ?_⟩ <;>
    simp [parse_class_info_new_format, stageC4, stageC3, stageC2, tier1EntriesC, cleanC,
      stripSeps, subFW, subAscii, isSep, scanAll, matchC1At, matchC2At, matchC3At, matchC4At,
      dashCount, isCJK, addIfNewC, natOfDigits]

/-- C5 (amended): `茶艺231-45` parses via tier 1 to canonical `23茶艺1` with
count 45, and the bare `251` yields canonical `25电1` (default major
substituted) with no count — produced by the tier-2 block, whose optional
ideograph group also covers bare digit runs, while tier 4 is never reached
(tier 1 finds nothing, tier 2 does). -/
theorem dialectC_scenarios :
    parse_class_info_new_format ("茶艺231-45".data) = [(("23茶艺1").data, some 45)] ∧
    tier1EntriesC (cleanC ("茶艺231-45".data)) = [(("23茶艺1").data, some 45)] ∧
    parse_class_info_new_format ("251".data) = [(("25电1").data, (none : Option Nat))] ∧
    stageC2 (cleanC ("251".data)) = [(("25电1").data, (none : Option Nat))] ∧
    scanAll matchC1At (cleanC ("251".data)) = [] := by
  refine ⟨?_, ?_, ?_, ?_, ?_⟩ <;>
    simp [parse_class_info_new_format, stageC4, stageC3, stageC2, tier1EntriesC, cleanC,
      stripSeps, subFW, subAscii, isSep, scanAll, matchC1At, matchC2At, matchC3At, matchC4At,
      dashCount, isCJK, addIfNewC, natOfDigits]

/-- C6: the dialect-B fallback tier is consulted only when tier 1 yields no
entries — whenever tier 1 matches, the parse result is exactly the tier-1
entries — and on the cell `2401班40` (no `人`) tier 1 fails while the parse
yields exactly `[("2401班", 40)]`, which is the tier-2 result. -/
theorem dialectB_tier2_only_on_tier1_failure :
    (∀ l : List Char, (scanAll matchB1At l).isEmpty = false →
      parse_class_info_new l = scanAll matchB1At l) ∧
    scanAll matchB1At ("2401班40".data) = [] ∧
    parse_class_info_new ("2401班40".data) = [(("2401班").data, 40)] ∧
    parse_class_info_new ("2401班40".data) = scanAll matchB2At ("2401班40".data) := by
  refine ⟨?_, ?_, ?_, ?_⟩
  · intro l h
    unfold parse_class_info_new
    simp [h]
  · simp [scanAll, matchB1At, natOfDigits]
  · simp [parse_class_info_new, scanAll, matchB1At, matchB2At, natOfDigits]
  · simp [parse_class_info_new, scanAll, matchB1At, matchB2At, natOfDigits]

/-- C6 witness: on `2401班 40人` tier 1 does match, and the parse result is
the tier-1 entry list. -/
theorem dialectB_tier2_only_on_tier1_failure_witness :
    parse_class_info_new ("2401班 40人".data) = scanAll matchB1At ("2401班 40人".data) :=
  dialectB_tier2_only_on_tier1_failure.1 ("2401班 40人".data)
    (by simp [scanAll, matchB1At, natOfDigits])

/-! Generic facts about the `findall` scanner, used for C8 and C9. -/

theorem scanAll_shape {β : Type} (m : List Char → Option (β × List Char)) (Q : β → Prop)
    (hm : ∀ l b r, m l = some (b, r) → Q b) :
    ∀ (n : Nat) (l : List Char), l.length ≤ n → ∀ b ∈ scanAll m l, Q b := by
  intro n
  induction n with
  | zero =>
    intro l hl b hb
    have : l = [] := List.length_eq_zero.mp (Nat.le_zero.mp hl)
    subst this
    simp [scanAll] at hb
  | succ n ih =>
    intro l hl b hb
    cases l with
    | nil => simp [scanAll] at hb
    | cons a t =>
      have ht : t.length ≤ n := by
        simp only [List.length_cons] at hl
        omega
      rw [scanAll] at hb
      cases hm2 : m (a :: t) with
      | some br =>
        obtain ⟨b0, r⟩ := br
        simp only [hm2, List.mem_cons] at hb
        rcases hb with rfl | hb
        · exact hm _ _ _ hm2
        · by_cases hg : r.length ≤ t.length
          · rw [dif_pos hg] at hb
            exact ih r (le_trans hg ht) b hb
          · rw [dif_neg hg] at hb
            exact ih t ht b hb
      | none =>
        simp only [hm2] at hb
        exact ih t ht b hb

theorem scanAll_eq_nil {β : Type} (m : List Char → Option (β × List Char))
    (p : Char → Bool) (hfail : ∀ t : List Char, (∀ c ∈ t, p c = true) → m t = none) :
    ∀ (n : Nat) (l : List Char), l.length ≤ n → (∀ c ∈ l, p c = true) →
      scanAll m l = [] := by
  intro n
  induction n with
  | zero =>
    intro l hl _
    have : l = [] := List.length_eq_zero.mp (Nat.le_zero.mp hl)
    subst this
    simp [scanAll]
  | succ n ih =>
    intro l hl hall
    cases l with
    | nil => simp [scanAll]
    | cons a t =>
      have ht : t.length ≤ n := by
        simp only [List.length_cons] at hl
        omega
      rw [scanAll]
      simp only [hfail (a :: t) hall]
      exact ih t ht (fun c hc => hall c (List.mem_cons_of_mem a hc))

/-! Character-class facts and matcher-failure lemmas on blank input. -/

theorem ws_not_digit (c : Char) (h : c.isWhitespace = true) : c.isDigit = false := by
  simp only [Char.isWhitespace, Bool.or_eq_true, decide_eq_true_eq] at h
  rcases h with ((h | h) | h) | h <;> subst h <;> decide

theorem ws_not_cjk (c : Char) (h : c.isWhitespace = true) : isCJK c = false := by
  simp only [Char.isWhitespace, Bool.or_eq_true, decide_eq_true_eq] at h
  rcases h with ((h | h) | h) | h <;> subst h <;> decide

theorem takeWhile_nil_of_all {p : Char → Bool} :
    ∀ l : List Char, (∀ c ∈ l, p c = false) → l.takeWhile p = [] := by
  intro l h
  cases l with
  | nil => rfl
  | cons a t => simp [List.takeWhile_cons, h a (List.mem_cons_self a t)]

theorem matchA1At_blank (t : List Char) (h : ∀ c ∈ t, c.isWhitespace = true) :
    matchA1At t = none := by
  match t with
  | [] => rfl
  | [d] => rfl
  | d1 :: d2 :: rest =>
    have hd : d1.isDigit = false := ws_not_digit d1 (h d1 (List.mem_cons_self _ _))
    simp [matchA1At, hd]

theorem matchA2At_blank (t : List Char) (h : ∀ c ∈ t, c.isWhitespace = true) :
    matchA2At t = none := by
  match t with
  | [] => rfl
  | [d] => rfl
  | d1 :: d2 :: rest =>
    have hd : d1.isDigit = false := ws_not_digit d1 (h d1 (List.mem_cons_self _ _))
    simp [matchA2At, hd]

theorem matchB1At_blank (t : List Char) (h : ∀ c ∈ t, c.isWhitespace = true) :
    matchB1At t = none := by
  have h2 : t.takeWhile Char.isDigit = [] :=
    takeWhile_nil_of_all t (fun c hc => ws_not_digit c (h c hc))
  simp [matchB1At, h2]

theorem matchB2At_blank (t : List Char) (h : ∀ c ∈ t, c.isWhitespace = true) :
    matchB2At t = none := by
  have h2 : t.takeWhile Char.isDigit = [] :=
    takeWhile_nil_of_all t (fun c hc => ws_not_digit c (h c hc))
  simp [matchB2At, h2]

theorem matchC1At_blank (t : List Char) (h : ∀ c ∈ t, c.isWhitespace = true) :
    matchC1At t = none := by
  have h2 : t.takeWhile isCJK = [] :=
    takeWhile_nil_of_all t (fun c hc => ws_not_cjk c (h c hc))
  simp [matchC1At, h2]

theorem matchC2At_blank (t : List Char) (h : ∀ c ∈ t, c.isWhitespace = true) :
    matchC2At t = none := by
  have h2 : (t.dropWhile isCJK).takeWhile Char.isDigit = [] :=
    takeWhile_nil_of_all _
      (fun c hc => ws_not_digit c (h c ((List.dropWhile_sublist _).mem hc)))
  simp [matchC2At, h2]

theorem matchC3At_blank (t : List Char) (h : ∀ c ∈ t, c.isWhitespace = true) :
    matchC3At t = none := by
  have h2 : t.takeWhile Char.isDigit = [] :=
    takeWhile_nil_of_all t (fun c hc => ws_not_digit c (h c hc))
  simp [matchC3At, h2]

theorem matchC4At_blank (t : List Char) (h : ∀ c ∈ t, c.isWhitespace = true) :
    matchC4At t = none := by
  match t with
  | [] => rfl
  | [d] => rfl
  | [d1, d2] => rfl
  | d1 :: d2 :: d3 :: r =>
    have hd : d1.isDigit = false := ws_not_digit d1 (h d1 (List.mem_cons_self _ _))
    simp [matchC4At, hd]

/-! Characters surviving the dialect-C cleaning prelude come from the input. -/

theorem mem_subFW :
    ∀ (n : Nat) (l : List Char), l.length ≤ n → ∀ c ∈ subFW l, c ∈ l := by
  intro n
  induction n with
  | zero =>
    intro l hl c hc
    have : l = [] := List.length_eq_zero.mp (Nat.le_zero.mp hl)
    subst this
    simp [subFW] at hc
  | succ n ih =>
    intro l hl c hc
    cases l with
    | nil => simp [subFW] at hc
    | cons a rest =>
      have hr : rest.length ≤ n := by
        simp only [List.length_cons] at hl
        omega
      rw [subFW] at hc
      by_cases ha : a = '（'
      · rw [if_pos ha] at hc
        split at hc
        · rename_i rest2 heq
          have hsub : ('）' :: rest2).length ≤ rest.length := by
            rw [← heq]
            exact (List.dropWhile_sublist _).length_le
          have h2 : rest2.length ≤ n := by
            simp only [List.length_cons] at hsub
            omega
          have hc2 := ih rest2 h2 c hc
          have hc3 : c ∈ '）' :: rest2 := List.mem_cons_of_mem _ hc2
          rw [← heq] at hc3
          exact List.mem_cons_of_mem a ((List.dropWhile_sublist _).mem hc3)
        · rcases List.mem_cons.mp hc with rfl | hc2
          · exact List.mem_cons_self _ _
          · exact List.mem_cons_of_mem a (ih rest hr c hc2)
      · rw [if_neg ha] at hc
        rcases List.mem_cons.mp hc with rfl | hc2
        · exact List.mem_cons_self _ _
        · exact List.mem_cons_of_mem a (ih rest hr c hc2)

theorem mem_subAscii :
    ∀ (n : Nat) (l : List Char), l.length ≤ n → ∀ c ∈ subAscii l, c ∈ l := by
  intro n
  induction n with
  | zero =>
    intro l hl c hc
    have : l = [] := List.length_eq_zero.mp (Nat.le_zero.mp hl)
    subst this
    simp [subAscii] at hc
  | succ n ih =>
    intro l hl c hc
    cases l with
    | nil => simp [subAscii] at hc
    | cons a rest =>
      have hr : rest.length ≤ n := by
        simp only [List.length_cons] at hl
        omega
      rw [subAscii] at hc
      by_cases ha : a = '('
      · rw [if_pos ha] at hc
        split at hc
        · rename_i rest2 heq
          have hsub : (')' :: rest2).length ≤ rest.length := by
            rw [← heq]
            exact (List.dropWhile_sublist _).length_le
          have h2 : rest2.length ≤ n := by
            simp only [List.length_cons] at hsub
            omega
          have hc2 := ih rest2 h2 c hc
          have hc3 : c ∈ ')' :: rest2 := List.mem_cons_of_mem _ hc2
          rw [← heq] at hc3
          exact List.mem_cons_of_mem a ((List.dropWhile_sublist _).mem hc3)
        · rcases List.mem_cons.mp hc with rfl | hc2
          · exact List.mem_cons_self _ _
          · exact List.mem_cons_of_mem a (ih rest hr c hc2)
      · rw [if_neg ha] at hc
        rcases List.mem_cons.mp hc with rfl | hc2
        · exact List.mem_cons_self _ _
        · exact List.mem_cons_of_mem a (ih rest hr c hc2)

theorem mem_stripSeps (l : List Char) (c : Char) (hc : c ∈ stripSeps l) : c ∈ l := by
  unfold stripSeps at hc
  rw [List.mem_reverse] at hc
  have h1 := (List.dropWhile_sublist isSep).mem hc
  rw [List.mem_reverse] at h1
  exact (List.dropWhile_sublist isSep).mem h1

theorem mem_cleanC (l : List Char) (c : Char) (hc : c ∈ cleanC l) : c ∈ l := by
  unfold cleanC at hc
  have h1 := mem_stripSeps _ c hc
  have h2 := mem_subAscii _ _ le_rfl c h1
  exact mem_subFW _ _ le_rfl c h2

/-- Both dialect-A patterns and the B/C tiers reject a fully-blank string. -/
theorem blank_string_parsers (l : List Char) (h : ∀ c ∈ l, c.isWhitespace = true) :
    parse_class_info l = [] ∧ parse_class_info_new l = [] ∧
      parse_class_info_new_format l = [] := by
  have hA1 : scanAll matchA1At l = [] :=
    scanAll_eq_nil _ Char.isWhitespace matchA1At_blank l.length l le_rfl h
  have hA2 : scanAll matchA2At l = [] :=
    scanAll_eq_nil _ Char.isWhitespace matchA2At_blank l.length l le_rfl h
  have hB1 : scanAll matchB1At l = [] :=
    scanAll_eq_nil _ Char.isWhitespace matchB1At_blank l.length l le_rfl h
  have hB2 : scanAll matchB2At l = [] :=
    scanAll_eq_nil _ Char.isWhitespace matchB2At_blank l.length l le_rfl h
  have hcl : ∀ c ∈ cleanC l, c.isWhitespace = true := fun c hc => h c (mem_cleanC l c hc)
  have hC1 : scanAll matchC1At (cleanC l) = [] :=
    scanAll_eq_nil _ Char.isWhitespace matchC1At_blank (cleanC l).length _ le_rfl hcl
  have hC2 : scanAll matchC2At (cleanC l) = [] :=
    scanAll_eq_nil _ Char.isWhitespace matchC2At_blank (cleanC l).length _ le_rfl hcl
  have hC3 : scanAll matchC3At (cleanC l) = [] :=
    scanAll_eq_nil _ Char.isWhitespace matchC3At_blank (cleanC l).length _ le_rfl hcl
  have hC4 : scanAll matchC4At (cleanC l) = [] :=
    scanAll_eq_nil _ Char.isWhitespace matchC4At_blank (cleanC l).length _ le_rfl hcl
  refine ⟨?_, ?_, ?_⟩
  · simp [parse_class_info, hA1, hA2]
  · simp [parse_class_info_new, hB1, hB2]
  · simp [parse_class_info_new_format, stageC4, stageC3, stageC2, tier1EntriesC,
      hC1, hC2, hC3, hC4]

/-- C9: for every cell value of any type, the pipelines coerce it to text
before matching (`cellStr`), and an empty, missing, or whitespace-only class
cell yields zero entries in all three dialect parsers and contributes no
fact row downstream. -/
theorem blank_cells_yield_nothing (v : CellVal) (h : isBlankVal v = true) :
    parse_class_info (cellStr v) = [] ∧
    parse_class_info_new (cellStr v) = [] ∧
    parse_class_info_new_format (cellStr v) = [] ∧
    (∀ b : CellVal, excelRawFacts 0 1 none none [[v, b]] = []) ∧
    (∀ b : CellVal, winterFacts 0 1 none none [[v, b]] = []) ∧
    (∀ s b p i : CellVal, westlakeFacts [[s, b, p, i, v]] = []) := by
  have hp : parse_class_info (cellStr v) = [] ∧ parse_class_info_new (cellStr v) = [] ∧
      parse_class_info_new_format (cellStr v) = [] := by
    cases v with
    | str s =>
      have hws : ∀ c ∈ cellStr (CellVal.str s), c.isWhitespace = true := by
        intro c hc
        exact List.all_eq_true.mp h c hc
      exact blank_string_parsers _ hws
    | na =>
      refine ⟨?_, ?_, ?_⟩ <;>
        simp [cellStr, parse_class_info, parse_class_info_new,
          parse_class_info_new_format, stageC4, stageC3, stageC2, tier1EntriesC, cleanC,
          stripSeps, subFW, subAscii, isSep, scanAll, matchA1At, matchA2At, matchB1At,
          matchB2At, matchC1At, matchC2At, matchC3At, matchC4At, dashCount, goodA, isCJK,
          natOfDigits]
    | intval n => simp [isBlankVal] at h
  obtain ⟨h1, h2, h3⟩ := hp
  refine ⟨h1, h2, h3, ?_, ?_, ?_⟩
  · intro b
    simp [excelRawFacts, cellAt, h1]
  · intro b
    simp [winterFacts, cellAt, h]
  · intro s b p i
    simp [westlakeFacts, cellAt, h]

/-- C9 witness: the theorem applied at the whitespace-only cell `" "`. -/
theorem blank_cells_yield_nothing_witness :
    parse_class_info (cellStr (.str " ")) = [] ∧
    parse_class_info_new (cellStr (.str " ")) = [] ∧
    parse_class_info_new_format (cellStr (.str " ")) = [] :=
  ⟨(blank_cells_yield_nothing (.str " ") (by decide)).1,
   (blank_cells_yield_nothing (.str " ") (by decide)).2.1,
   (blank_cells_yield_nothing (.str " ") (by decide)).2.2.1⟩

/-! Shape of every class id produced by the dialect-B parser (C8). -/

theorem matchB1At_shape (l : List Char) (e : List Char × Nat) (r : List Char)
    (h : matchB1At l = some (e, r)) :
    ∃ ds, ds ≠ [] ∧ (∀ c ∈ ds, c.isDigit = true) ∧ e.1 = ds ++ ['班'] := by
  unfold matchB1At at h
  by_cases h1 : (l.takeWhile Char.isDigit).isEmpty = true
  · rw [if_pos h1] at h
    exact absurd h (by simp)
  · rw [if_neg h1] at h
    split at h
    · split at h
      · exact absurd h (by simp)
      · split at h
        · simp only [Option.some.injEq, Prod.mk.injEq] at h
          refine ⟨l.takeWhile Char.isDigit, ?_, ?_, ?_⟩
          · intro hnil
            rw [hnil] at h1
            exact h1 rfl
          · exact fun c hc => List.mem_takeWhile_imp hc
          · rw [← h.1]
        · exact absurd h (by simp)
    · exact absurd h (by simp)

theorem matchB2At_shape (l : List Char) (e : List Char × Nat) (r : List Char)
    (h : matchB2At l = some (e, r)) :
    ∃ ds, ds ≠ [] ∧ (∀ c ∈ ds, c.isDigit = true) ∧ e.1 = ds ++ ['班'] := by
  unfold matchB2At at h
  by_cases h1 : (l.takeWhile Char.isDigit).isEmpty = true
  · rw [if_pos h1] at h
    exact absurd h (by simp)
  · rw [if_neg h1] at h
    split at h
    · split at h
      · exact absurd h (by simp)
      · simp only [Option.some.injEq, Prod.mk.injEq] at h
        refine ⟨l.takeWhile Char.isDigit, ?_, ?_, ?_⟩
        · intro hnil
          rw [hnil] at h1
          exact h1 rfl
        · exact fun c hc => List.mem_takeWhile_imp hc
        · rw [← h.1]
    · exact absurd h (by simp)

theorem parse_class_info_new_shape (l : List Char) :
    ∀ e ∈ parse_class_info_new l,
      ∃ ds, ds ≠ [] ∧ (∀ c ∈ ds, c.isDigit = true) ∧ e.1 = ds ++ ['班'] := by
  intro e he
  unfold parse_class_info_new at he
  by_cases h : (scanAll matchB1At l).isEmpty = true
  · rw [if_pos h] at he
    exact scanAll_shape matchB2At _
      (fun t b r hb => matchB2At_shape t b r hb) l.length l le_rfl e he
  · rw [if_neg h] at he
    exact scanAll_shape matchB1At _
      (fun t b r hb => matchB1At_shape t b r hb) l.length l le_rfl e he

/-- C8: on every successful dialect-B run, each emitted canonical class id is
a nonempty digit run followed by `班`; hence any id whose remainder after
stripping the `班` suffix is not purely numeric (such as `贸易班`) never
appears in the output, it passes the silent `.str.isnumeric()` filter, and
the exclusion produces no error. -/
theorem dialectB_nonnumeric_class_excluded (hdrs : List String)
    (rows : List (List CellVal)) (out : List OutRow)
    (h : process_winter_homework hdrs rows = .ok out) :
    ∀ r ∈ out, ∃ ds, ds ≠ [] ∧ (∀ c ∈ ds, c.isDigit = true) ∧
      r.fact.cls = ds ++ ['班'] ∧ r.fact.cls ≠ ("贸易班").data ∧
      isNumericStripped r.fact.cls = true := by
  obtain ⟨ci, bi, hci, hbi, rfl⟩ := process_winter_ok_strong hdrs rows out h
  intro r hr
  have hf : r.fact ∈ dedupK dedupKey (isort leB (winterKeptFacts ci bi
      (firstIdx? isPubCol hdrs) (firstIdx? isIsbnCol hdrs) rows)) := by
    simp only [assignSeq, List.mem_map] at hr
    obtain ⟨f, hfmem, rfl⟩ := hr
    exact hfmem
  have hf2 := dedupK_subset dedupKey _ _ le_rfl _ hf
  have hf3 := (mem_isort leB r.fact _).mp hf2
  have hf4 := (List.mem_filter.mp hf3).1
  unfold winterFacts at hf4
  rw [List.mem_flatMap] at hf4
  obtain ⟨row, _, hfr⟩ := hf4
  by_cases hbk : isBlankVal (cellAt row ci) = true
  · rw [if_pos hbk] at hfr
    simp at hfr
  · rw [if_neg hbk] at hfr
    rw [List.mem_map] at hfr
    obtain ⟨e, he, heq⟩ := hfr
    obtain ⟨ds, hne, hdig, hcls⟩ := parse_class_info_new_shape _ e he
    have hcls2 : r.fact.cls = ds ++ ['班'] := by
      rw [← heq]
      exact hcls
    have hdig_ne_ban : ∀ c ∈ ds, (!(c = '班' : Bool)) = true := by
      intro c hc
      have hd := hdig c hc
      simp only [Bool.not_eq_eq_eq_not, Bool.not_true, decide_eq_false_iff_not]
      intro habs
      rw [habs] at hd
      exact absurd hd (by decide)
    refine ⟨ds, hne, hdig, hcls2, ?_, ?_⟩
    · intro habs
      have hx : ds ++ ['班'] = ("贸易班").data := hcls2.symm.trans habs
      cases ds with
      | nil => simp at hx
      | cons d t =>
        have hd1 : d = '贸' := by
          have := congrArg (fun z => z.headI) hx
          simpa using this
        have := hdig d (List.mem_cons_self _ _)
        rw [hd1] at this
        exact absurd this (by decide)
    · rw [hcls2]
      unfold isNumericStripped stripBan
      have hfil : (ds ++ ['班']).filter (fun ch => !(ch = '班' : Bool)) = ds := by
        rw [List.filter_append]
        rw [List.filter_eq_self.mpr hdig_ne_ban]
        have h2 : (['班'] : List Char).filter (fun ch => !(ch = '班' : Bool)) = [] := by
          decide
        rw [h2, List.append_nil]
      rw [hfil]
      simp only [Bool.and_eq_true, Bool.not_eq_eq_eq_not, Bool.not_true, List.all_eq_true]
      constructor
      · cases hds : ds with
        | nil => exact absurd hds hne
        | cons x xs => rfl
      · exact hdig

/-- C8 witness: the theorem applied to a concrete dialect-B run whose single
output row carries the class id `2401班`. -/
theorem dialectB_nonnumeric_class_excluded_witness :
    ∃ ds, ds ≠ [] ∧ (∀ c ∈ ds, c.isDigit = true) ∧
      (⟨some 1, ⟨"2401班".data, .str "B", .str "", .str "", some 40⟩⟩ : OutRow).fact.cls =
        ds ++ ['班'] ∧
      (⟨some 1, ⟨"2401班".data, .str "B", .str "", .str "", some 40⟩⟩ : OutRow).fact.cls ≠
        ("贸易班").data ∧
      isNumericStripped
        (⟨some 1, ⟨"2401班".data, .str "B", .str "", .str "", some 40⟩⟩ : OutRow).fact.cls =
        true := by
  refine dialectB_nonnumeric_class_excluded ["教材", "班级"] [[.str "B", .str "2401班 40人"]]
    [⟨some 1, ⟨"2401班".data, .str "B", .str "", .str "", some 40⟩⟩] ?_ _
    (List.mem_cons_self _ _)
  simp [process_winter_homework, winterFacts, winterKeptFacts, firstIdx?, isClassCol,
    isBookCol, isPubCol, isIsbnCol, hasSub, startsList, cellAt, optCellAt, cellStr,
    isBlankVal, parse_class_info_new, scanAll, matchB1At, matchB2At, natOfDigits,
    isNumericStripped, stripBan, dedupK, dedupKey, isort, insSorted, leB, assignSeq, idxOf?]

/-- C10: `process_westlake` drops the first data row before parsing, so the
content of the row at index 0 never influences the output: replacing it by
any other row leaves the result unchanged, and in particular it contributes
no fact row. -/
theorem westlake_first_row_ignored (hdrs : List String) (r0 r0' : List CellVal)
    (rest : List (List CellVal)) :
    process_westlake hdrs (r0 :: rest) = process_westlake hdrs (r0' :: rest) := by
  unfold process_westlake westlakeData
  simp

end ExcelTool
